import Mathlib

/-!
Verification of the WhatTheLog graph storage and mutation engine.

We give a shallow embedding of the core data structures of the repository:
the string-encoded sorted adjacency store (`whatthelog/prefixtree/sparse_matrix.py`),
the state/graph model and its mutation operations
(`whatthelog/prefixtree/graph.py`, `whatthelog/prefixtree/state.py`),
and the trace-matching algorithm, and prove or refute the specified properties.

Python strings are embedded as `List Char` with code-point lexicographic
comparison (`pyLt`), matching Python string comparison for the ASCII data
handled here.  Python `int` indices are `Nat` (they are always non-negative
dense indices).  Mutable Python objects (`State`) are modelled by an explicit
heap mapping the object identity `id(state)` to the object's fields; Python
dicts are modelled as insertion-ordered association lists.  Fallible code
returns `Except`; mutating methods return the post-call state of the object
together with the result, so that the state at an exception is observable.
-/

namespace WhatTheLog

/-! ### Python strings as lists of characters -/

/-- Python string comparison: lexicographic by code point. -/
def pyLt : List Char → List Char → Bool
  | _, [] => false
  | [], _ :: _ => true
  | a :: as, b :: bs => if a < b then true else if a = b then pyLt as bs else false

theorem pyLt_not_nil (a : List Char) : pyLt a [] = false := by
  cases a <;> rfl

theorem pyLt_cons_iff {x y : Char} {xs ys : List Char} :
    pyLt (x :: xs) (y :: ys) = true ↔ x < y ∨ (x = y ∧ pyLt xs ys = true) := by
  simp only [pyLt]
  split_ifs with h1 h2
  · simp [h1]
  · simp [h1, h2]
  · simp [h1, h2]


theorem bool_eq_false {b : Bool} (h : ¬ b = true) : b = false := by
  cases b
  · rfl
  · exact absurd rfl h

theorem pyLt_irrefl (l : List Char) : pyLt l l = false := by
  induction l with
  | nil => rfl
  | cons a as ih => simp [pyLt, ih]

theorem pyLt_trans : ∀ {a b c : List Char},
    pyLt a b = true → pyLt b c = true → pyLt a c = true := by
  intro a
  induction a with
  | nil =>
    intro b c hab hbc
    cases b with
    | nil => simp [pyLt] at hab
    | cons y ys =>
      cases c with
      | nil => simp [pyLt_not_nil] at hbc
      | cons z zs => simp [pyLt]
  | cons x xs ih =>
    intro b c hab hbc
    cases b with
    | nil => simp [pyLt_not_nil] at hab
    | cons y ys =>
      cases c with
      | nil => simp [pyLt_not_nil] at hbc
      | cons z zs =>
        rw [pyLt_cons_iff] at hab hbc ⊢
        rcases hab with h1 | ⟨rfl, h1⟩
        · rcases hbc with h2 | ⟨rfl, h2⟩
          · exact Or.inl (lt_trans h1 h2)
          · exact Or.inl h1
        · rcases hbc with h2 | ⟨rfl, h2⟩
          · exact Or.inl h2
          · exact Or.inr ⟨rfl, ih h1 h2⟩

theorem pyLt_eq_of_not_lt : ∀ {a b : List Char},
    pyLt a b = false → pyLt b a = false → a = b := by
  intro a
  induction a with
  | nil =>
    intro b hab hba
    cases b with
    | nil => rfl
    | cons y ys => simp [pyLt] at hab
  | cons x xs ih =>
    intro b hab hba
    cases b with
    | nil => simp [pyLt] at hba
    | cons y ys =>
      rw [Bool.eq_false_iff, Ne, pyLt_cons_iff] at hab hba
      push_neg at hab hba
      by_cases hxy : x < y
      · exact absurd hxy (not_lt.mpr hab.1)
      · by_cases hyx : y < x
        · exact absurd hyx (not_lt.mpr hba.1)
        · have hxy2 : x = y := le_antisymm (not_lt.mp hyx) (not_lt.mp hxy)
          subst hxy2
          have h1 : pyLt xs ys = false := by
            have := hab.2 rfl
            simpa using this
          have h2 : pyLt ys xs = false := by
            have := hba.2 rfl
            simpa using this
          rw [ih h1 h2]

theorem isPrefixOf_refl (a : List Char) : List.isPrefixOf a a = true := by
  induction a with
  | nil => rfl
  | cons c cs ih => simp [List.isPrefixOf, ih]

theorem isPrefixOf_cons_iff {a b : Char} {as bs : List Char} :
    List.isPrefixOf (a :: as) (b :: bs) = true ↔ a = b ∧ List.isPrefixOf as bs = true := by
  simp [List.isPrefixOf]

/-- An extension of a list is never strictly below that list. -/
theorem pyLt_ext_not_lt : ∀ {t s : List Char},
    List.isPrefixOf t s = true → pyLt s t = false := by
  intro t
  induction t with
  | nil =>
    intro s _
    exact pyLt_not_nil s
  | cons a as ih =>
    intro s hp
    cases s with
    | nil => simp [List.isPrefixOf] at hp
    | cons b bs =>
      rw [isPrefixOf_cons_iff] at hp
      obtain ⟨rfl, hp⟩ := hp
      simp [pyLt, ih hp]

/-- If `target` is below `u` but not a prefix of `u`, every extension of
`target` is below `u`. -/
theorem pyLt_ext_lt : ∀ {t u s : List Char},
    List.isPrefixOf t u = false → pyLt t u = true →
    List.isPrefixOf t s = true → pyLt s u = true := by
  intro t
  induction t with
  | nil => intro u s hpu; simp [List.isPrefixOf] at hpu
  | cons a as ih =>
    intro u s hpu hlt hps
    cases u with
    | nil => simp [pyLt_not_nil] at hlt
    | cons b bs =>
      cases s with
      | nil => simp [List.isPrefixOf] at hps
      | cons c cs =>
        rw [isPrefixOf_cons_iff] at hps
        obtain ⟨rfl, hps⟩ := hps
        rw [pyLt_cons_iff] at hlt ⊢
        rcases hlt with h1 | ⟨rfl, h1⟩
        · exact Or.inl h1
        · refine Or.inr ⟨rfl, ?_⟩
          have hpu2 : List.isPrefixOf as bs = false := by
            by_cases h : List.isPrefixOf as bs = true
            · rw [show List.isPrefixOf (a :: as) (a :: bs) = true from
                isPrefixOf_cons_iff.mpr ⟨rfl, h⟩] at hpu
              exact Bool.noConfusion hpu
            · exact bool_eq_false h
          exact ih hpu2 h1 hps

/-- If `u` is not above `target` and `target` is not a prefix of `u`, every
extension of `target` is strictly above `u`. -/
theorem pyLt_lt_ext : ∀ {t u s : List Char},
    List.isPrefixOf t u = false → pyLt t u = false →
    List.isPrefixOf t s = true → pyLt u s = true := by
  intro t u s hpu hnlt hps
  by_cases hut : pyLt u t = true
  · by_cases hsu : pyLt s u = true
    · exact absurd (pyLt_trans hsu hut) (by simp [pyLt_ext_not_lt hps])
    · by_cases hus : pyLt u s = true
      · exact hus
      · have heq : u = s := pyLt_eq_of_not_lt (by simpa using hus) (by simpa using hsu)
        rw [← heq] at hps
        rw [hps] at hpu
        exact Bool.noConfusion hpu
  · have heq : t = u := pyLt_eq_of_not_lt hnlt (by simpa using hut)
    rw [← heq, isPrefixOf_refl] at hpu
    exact Bool.noConfusion hpu

/-- Comparison of two lists, neither a prefix of the other, is unchanged by
appending suffixes. -/
theorem pyLt_append_of_not_prefix : ∀ {a b : List Char} (u w : List Char),
    List.isPrefixOf a b = false → List.isPrefixOf b a = false →
    pyLt (a ++ u) (b ++ w) = pyLt a b := by
  intro a
  induction a with
  | nil => intro b u w hab _; simp [List.isPrefixOf] at hab
  | cons x xs ih =>
    intro b u w hab hba
    cases b with
    | nil => simp [List.isPrefixOf] at hba
    | cons y ys =>
      simp only [List.cons_append]
      by_cases hxy : x < y
      · simp [pyLt, hxy]
      · by_cases hxy2 : x = y
        · subst hxy2
          have hab2 : List.isPrefixOf xs ys = false := by
            by_cases h : List.isPrefixOf xs ys = true
            · rw [show List.isPrefixOf (x :: xs) (x :: ys) = true from
                isPrefixOf_cons_iff.mpr ⟨rfl, h⟩] at hab
              exact Bool.noConfusion hab
            · exact bool_eq_false h
          have hba2 : List.isPrefixOf ys xs = false := by
            by_cases h : List.isPrefixOf ys xs = true
            · rw [show List.isPrefixOf (x :: ys) (x :: xs) = true from
                isPrefixOf_cons_iff.mpr ⟨rfl, h⟩] at hba
              exact Bool.noConfusion hba
            · exact bool_eq_false h
          simp [pyLt, hxy, ih u w hab2 hba2]
        · simp [pyLt, hxy, hxy2]

theorem isPrefixOf_append_left : ∀ (a : List Char) {x y : List Char},
    List.isPrefixOf x y = true → List.isPrefixOf (a ++ x) (a ++ y) = true := by
  intro a
  induction a with
  | nil => intro x y h; simpa using h
  | cons c cs ih => intro x y h; simp [List.isPrefixOf, ih h]

theorem isPrefixOf_nil_left (y : List Char) : List.isPrefixOf [] y = true := by
  cases y <;> rfl

/-! ### Decimal representation of the non-negative integer indices

Models Python `str(n)` for a non-negative `int`, as used in the key encoding
of the sparse matrix, and Python `int(s)` on the digit strings produced by
`str.split`. -/

/-- The decimal digit character of `d % 10`. -/
def digitChar (d : Nat) : Char :=
  match d % 10 with
  | 0 => '0' | 1 => '1' | 2 => '2' | 3 => '3' | 4 => '4'
  | 5 => '5' | 6 => '6' | 7 => '7' | 8 => '8' | _ => '9'

/-- Fuel-indexed digit accumulator; `fuel > n` makes it total on `n`. -/
def natCharsGo : Nat → Nat → List Char → List Char
  | 0, _, acc => acc
  | fuel + 1, n, acc =>
    let acc2 := digitChar (n % 10) :: acc
    if n < 10 then acc2 else natCharsGo fuel (n / 10) acc2

/-- Python `str(n)` for a non-negative integer. -/
def natChars (n : Nat) : List Char := natCharsGo (n + 1) n []

/-- Numeric value of a digit character, `c.toNat - 48`. -/
def charVal (c : Char) : Nat := c.toNat - 48

/-- Python `int(s)` on a string of decimal digits. -/
def charsVal (l : List Char) : Nat := l.foldl (fun a c => 10 * a + charVal c) 0

theorem digitChar_ne_dot (d : Nat) : digitChar d ≠ '.' := by
  unfold digitChar
  have : d % 10 < 10 := Nat.mod_lt d (by omega)
  interval_cases h : d % 10 <;> simp

theorem charVal_digitChar (d : Nat) : charVal (digitChar d) = d % 10 := by
  unfold digitChar
  have : d % 10 < 10 := Nat.mod_lt d (by omega)
  interval_cases h : d % 10 <;> decide

theorem natCharsGo_acc (fuel : Nat) : ∀ n acc, n < fuel →
    natCharsGo fuel n acc = natCharsGo fuel n [] ++ acc := by
  induction fuel with
  | zero => intro n acc h; omega
  | succ f ih =>
    intro n acc h
    by_cases h10 : n < 10
    · simp [natCharsGo, h10]
    · have hd : n / 10 < f := by
        have h1 : n / 10 < n := Nat.div_lt_self (by omega) (by omega)
        omega
      simp only [natCharsGo, h10, if_false]
      rw [ih (n / 10) (digitChar (n % 10) :: acc) hd,
          ih (n / 10) [digitChar (n % 10)] hd, List.append_assoc]
      rfl

theorem natCharsGo_fuel : ∀ f1 f2 n, n < f1 → n < f2 →
    natCharsGo f1 n [] = natCharsGo f2 n [] := by
  intro f1
  induction f1 with
  | zero => intro f2 n h; omega
  | succ g ih =>
    intro f2 n h1 h2
    cases f2 with
    | zero => omega
    | succ g2 =>
      by_cases h10 : n < 10
      · simp [natCharsGo, h10]
      · have hd1 : n / 10 < g := by
          have := Nat.div_lt_self (show 0 < n by omega) (show 1 < 10 by omega)
          omega
        have hd2 : n / 10 < g2 := by
          have := Nat.div_lt_self (show 0 < n by omega) (show 1 < 10 by omega)
          omega
        simp only [natCharsGo, h10, if_false]
        rw [natCharsGo_acc g (n / 10) _ hd1, natCharsGo_acc g2 (n / 10) _ hd2,
            ih g2 (n / 10) hd1 hd2]

/-- The defining recurrence of `natChars`. -/
theorem natChars_eq (n : Nat) : natChars n =
    if n < 10 then [digitChar n] else natChars (n / 10) ++ [digitChar (n % 10)] := by
  by_cases h10 : n < 10
  · rw [if_pos h10]
    simp [natChars, natCharsGo, h10, Nat.mod_eq_of_lt h10]
  · rw [if_neg h10]
    have hd : n / 10 < n := Nat.div_lt_self (by omega) (by omega)
    have step : natChars n = natCharsGo n (n / 10) [digitChar (n % 10)] := by
      simp [natChars, natCharsGo, h10]
    rw [step, natCharsGo_acc n (n / 10) _ (by omega),
        natCharsGo_fuel n (n / 10 + 1) (n / 10) (by omega) (by omega)]
    rfl

theorem natChars_ne_nil (n : Nat) : natChars n ≠ [] := by
  rw [natChars_eq]
  by_cases h : n < 10 <;> simp [h]

theorem dot_not_mem_natChars (n : Nat) : '.' ∉ natChars n := by
  induction n using Nat.strong_induction_on with
  | _ n ih =>
    rw [natChars_eq]
    by_cases h : n < 10
    · simp [h]
      exact fun hc => digitChar_ne_dot n hc.symm
    · simp [h]
      constructor
      · exact ih (n / 10) (Nat.div_lt_self (by omega) (by omega))
      · exact fun hc => digitChar_ne_dot (n % 10) hc.symm

theorem charsVal_natChars (n : Nat) : charsVal (natChars n) = n := by
  induction n using Nat.strong_induction_on with
  | _ n ih =>
    rw [natChars_eq]
    by_cases h : n < 10
    · have : n % 10 = n := Nat.mod_eq_of_lt h
      simp [h, charsVal, charVal_digitChar, this]
    · simp only [h, if_false]
      unfold charsVal
      rw [List.foldl_append]
      have : List.foldl (fun a c => 10 * a + charVal c) 0 (natChars (n / 10)) = n / 10 :=
        ih (n / 10) (Nat.div_lt_self (by omega) (by omega))
      rw [this]
      simp [charVal_digitChar]
      omega

theorem natChars_inj {m n : Nat} (h : natChars m = natChars n) : m = n := by
  have := charsVal_natChars m
  rw [h, charsVal_natChars] at this
  omega

/-! ### The sparse matrix entry encoding

An edge from source index `s` to destination index `d` with payload `v` is
stored as the Python string `str(s) + "." + str(d) + "." + str(v)`
(`SparseMatrix.__setitem__`). -/

/-- The full stored entry string for an edge. -/
def entryStr (s d : Nat) (v : List Char) : List Char :=
  natChars s ++ '.' :: (natChars d ++ '.' :: v)

/-- The search key used by `__find_index`: both indices and a trailing separator. -/
def pairKey (s d : Nat) : List Char :=
  natChars s ++ '.' :: (natChars d ++ ['.'])

/-- The search key used by `__contains__`: both indices, no trailing separator. -/
def containsKey (s d : Nat) : List Char :=
  natChars s ++ '.' :: natChars d

/-- The search key used by `__find_children`: the source index and a separator. -/
def srcKey (s : Nat) : List Char := natChars s ++ ['.']

/-- Split at the first separator character: the segment before the first dot
and the remainder after it (one step of Python `split('.')`). -/
def splitDot : List Char → List Char × List Char
  | [] => ([], [])
  | c :: rest =>
    if c = '.' then ([], rest)
    else
      let p := splitDot rest
      (c :: p.1, p.2)

/-- Python `value.split('.', 2)` followed by `int` on the first two segments,
as in `SparseMatrix.get_values`. -/
def decodeE (e : List Char) : Nat × Nat × List Char :=
  let p1 := splitDot e
  let p2 := splitDot p1.2
  (charsVal p1.1, charsVal p2.1, p2.2)

theorem splitDot_encode {xs : List Char} (r : List Char) (h : '.' ∉ xs) :
    splitDot (xs ++ '.' :: r) = (xs, r) := by
  induction xs with
  | nil => simp [splitDot]
  | cons c cs ih =>
    simp only [List.mem_cons, not_or] at h
    have hc : ¬c = '.' := fun hc => h.1 hc.symm
    simp [splitDot, hc, ih h.2]

theorem decodeE_entryStr (s d : Nat) (v : List Char) :
    decodeE (entryStr s d v) = (s, d, v) := by
  unfold decodeE entryStr
  rw [splitDot_encode _ (dot_not_mem_natChars s)]
  simp only
  rw [splitDot_encode _ (dot_not_mem_natChars d)]
  simp [charsVal_natChars]

theorem isPrefixOf_append_self (a x : List Char) : List.isPrefixOf a (a ++ x) = true := by
  have h := isPrefixOf_append_left a (isPrefixOf_nil_left x)
  simp only [List.append_nil] at h
  exact h

/-- Prefix comparison splits at the first separator when neither side's head
segment contains the separator. -/
theorem prefix_dot_split : ∀ {xs ys u v : List Char}, '.' ∉ xs → '.' ∉ ys →
    List.isPrefixOf (xs ++ '.' :: u) (ys ++ '.' :: v) = true →
    xs = ys ∧ List.isPrefixOf u v = true := by
  intro xs
  induction xs with
  | nil =>
    intro ys u v _ hy hp
    cases ys with
    | nil => simpa using hp
    | cons b bs =>
      simp only [List.nil_append, List.cons_append] at hp
      rw [isPrefixOf_cons_iff] at hp
      simp only [List.mem_cons, not_or] at hy
      exact absurd hp.1 hy.1
  | cons a as ih =>
    intro ys u v hx hy hp
    simp only [List.mem_cons, not_or] at hx
    cases ys with
    | nil =>
      simp only [List.cons_append, List.nil_append] at hp
      rw [isPrefixOf_cons_iff] at hp
      exact absurd hp.1.symm hx.1
    | cons b bs =>
      simp only [List.cons_append] at hp
      rw [isPrefixOf_cons_iff] at hp
      simp only [List.mem_cons, not_or] at hy
      obtain ⟨rfl, hp⟩ := hp
      obtain ⟨heq, hpr⟩ := ih hx.2 hy.2 hp
      exact ⟨by rw [heq], hpr⟩

theorem entryStr_eq_pairKey_append (s d : Nat) (v : List Char) :
    entryStr s d v = pairKey s d ++ v := by
  simp [entryStr, pairKey]

theorem pairKey_prefix_iff {s d s2 d2 : Nat} {v2 : List Char} :
    List.isPrefixOf (pairKey s d) (entryStr s2 d2 v2) = true ↔ s = s2 ∧ d = d2 := by
  constructor
  · intro h
    unfold pairKey entryStr at h
    obtain ⟨h1, h2⟩ := prefix_dot_split (dot_not_mem_natChars s) (dot_not_mem_natChars s2) h
    have h3 : natChars d ++ '.' :: ([] : List Char) = natChars d ++ ['.'] := rfl
    rw [← h3] at h2
    obtain ⟨h4, _⟩ := prefix_dot_split (dot_not_mem_natChars d) (dot_not_mem_natChars d2) h2
    exact ⟨natChars_inj h1, natChars_inj h4⟩
  · rintro ⟨rfl, rfl⟩
    rw [entryStr_eq_pairKey_append]
    exact isPrefixOf_append_self _ _

theorem srcKey_prefix_iff {s s2 d2 : Nat} {v2 : List Char} :
    List.isPrefixOf (srcKey s) (entryStr s2 d2 v2) = true ↔ s = s2 := by
  constructor
  · intro h
    unfold srcKey entryStr at h
    have h3 : natChars s ++ '.' :: ([] : List Char) = natChars s ++ ['.'] := rfl
    rw [← h3] at h
    obtain ⟨h1, _⟩ := prefix_dot_split (dot_not_mem_natChars s) (dot_not_mem_natChars s2) h
    exact natChars_inj h1
  · rintro rfl
    unfold srcKey entryStr
    have h3 : natChars s ++ '.' :: ([] : List Char) = natChars s ++ ['.'] := rfl
    rw [← h3]
    have h4 : natChars s ++ '.' :: ([] : List Char) ++ (natChars d2 ++ '.' :: v2)
        = natChars s ++ '.' :: (natChars d2 ++ '.' :: v2) := by simp
    rw [← h4]
    exact isPrefixOf_append_self _ _

theorem entryStr_inj {s d s2 d2 : Nat} {v v2 : List Char}
    (h : entryStr s d v = entryStr s2 d2 v2) : s = s2 ∧ d = d2 ∧ v = v2 := by
  have h1 := decodeE_entryStr s d v
  rw [h, decodeE_entryStr] at h1
  have e1 : s2 = s := congrArg Prod.fst h1
  have e2 : d2 = d := congrArg (fun t => t.2.1) h1
  have e3 : v2 = v := congrArg (fun t => t.2.2) h1
  exact ⟨e1.symm, e2.symm, e3.symm⟩

/-- Keys of distinct pairs are never prefixes of each other. -/
theorem pairKey_no_overlap {s d s2 d2 : Nat} (h : ¬(s = s2 ∧ d = d2)) :
    List.isPrefixOf (pairKey s d) (pairKey s2 d2) = false := by
  by_cases hp : List.isPrefixOf (pairKey s d) (pairKey s2 d2) = true
  · exfalso
    unfold pairKey at hp
    obtain ⟨h1, h2⟩ := prefix_dot_split (dot_not_mem_natChars s) (dot_not_mem_natChars s2) hp
    have h3 : natChars d ++ '.' :: ([] : List Char) = natChars d ++ ['.'] := rfl
    have h4 : natChars d2 ++ '.' :: ([] : List Char) = natChars d2 ++ ['.'] := rfl
    rw [← h3, ← h4] at h2
    obtain ⟨h5, _⟩ := prefix_dot_split (dot_not_mem_natChars d) (dot_not_mem_natChars d2) h2
    exact h ⟨natChars_inj h1, natChars_inj h5⟩
  · exact bool_eq_false hp

/-- Comparison of entries with distinct key pairs does not depend on payloads. -/
theorem entry_lt_key {s d s2 d2 : Nat} (v v2 : List Char) (h : ¬(s = s2 ∧ d = d2)) :
    pyLt (entryStr s d v) (entryStr s2 d2 v2) = pyLt (pairKey s d) (pairKey s2 d2) := by
  rw [entryStr_eq_pairKey_append, entryStr_eq_pairKey_append]
  exact pyLt_append_of_not_prefix v v2 (pairKey_no_overlap h)
    (pairKey_no_overlap (fun hc => h ⟨hc.1.symm, hc.2.symm⟩))

/-! ### Binary search (`SparseMatrix.bisearch`)

Python's loop runs with `low = 0, high = len - 1`, probing
`ix = (low + high) // 2` and returning any probe whose entry starts with the
target prefix (or `len(arr)` when the window empties).  We embed the loop with
a fuel argument for structural recursion; the window shrinks at every step, so
`len(arr) + 1` units of fuel always suffice. -/

def bisearchGo (arr : List (List Char)) (target : List Char) :
    Nat → Nat → Int → Nat
  | 0, _, _ => arr.length
  | fuel + 1, low, high =>
    if (low : Int) ≤ high then
      let ix : Nat := (low + high.toNat) / 2
      if List.isPrefixOf target (arr.getD ix []) then ix
      else if pyLt target (arr.getD ix []) then
        bisearchGo arr target fuel low ((ix : Int) - 1)
      else
        bisearchGo arr target fuel (ix + 1) high
    else arr.length

/-- Python `SparseMatrix.bisearch(arr, target)`. -/
def bisearch (arr : List (List Char)) (target : List Char) : Nat :=
  bisearchGo arr target (arr.length + 1) 0 ((arr.length : Int) - 1)

/-- Any result other than `arr.length` points at an element extending the target. -/
theorem bisearchGo_sound : ∀ (fuel : Nat) (arr : List (List Char)) (target : List Char)
    (low : Nat) (high : Int), high < (arr.length : Int) →
    bisearchGo arr target fuel low high ≠ arr.length →
    bisearchGo arr target fuel low high < arr.length ∧
      List.isPrefixOf target (arr.getD (bisearchGo arr target fuel low high) []) = true := by
  intro fuel
  induction fuel with
  | zero => intro arr target low high _ hne; simp [bisearchGo] at hne
  | succ f ih =>
    intro arr target low high hhigh hne
    by_cases hle : (low : Int) ≤ high
    · simp only [bisearchGo, hle, if_true] at hne ⊢
      by_cases hpre : List.isPrefixOf target (arr.getD ((low + high.toNat) / 2) []) = true
      · simp only [hpre, if_true] at hne ⊢
        have hixle : (low + high.toNat) / 2 < arr.length := by omega
        exact ⟨hixle, trivial⟩
      · simp only [hpre, if_false] at hne ⊢
        rw [Bool.not_eq_true] at hpre
        simp only [hpre, Bool.false_eq_true, if_false] at hne ⊢
        by_cases hlt : pyLt target (arr.getD ((low + high.toNat) / 2) []) = true
        · simp only [hlt, if_true] at hne ⊢
          exact ih arr target low _ (by omega) hne
        · rw [Bool.not_eq_true] at hlt
          simp only [hlt, Bool.false_eq_true, if_false] at hne ⊢
          exact ih arr target _ high hhigh hne
    · simp [bisearchGo, hle] at hne

theorem sorted_getD_lt {arr : List (List Char)}
    (hs : arr.Pairwise (fun a b => pyLt a b = true))
    {i j : Nat} (hi : i < arr.length) (hj : j < arr.length) (hij : i < j) :
    pyLt (arr.getD i []) (arr.getD j []) = true := by
  rw [List.getD_eq_getElem arr [] hi, List.getD_eq_getElem arr [] hj]
  exact List.pairwise_iff_getElem.mp hs i j hi hj hij

/-- On a sorted array, the search finds a match whenever one exists in the
current window. -/
theorem bisearchGo_complete : ∀ (fuel : Nat) (arr : List (List Char))
    (target : List Char) (low : Nat) (high : Int) (j : Nat),
    arr.Pairwise (fun a b => pyLt a b = true) →
    high < (arr.length : Int) →
    (high + 1 - low).toNat < fuel →
    j < arr.length → List.isPrefixOf target (arr.getD j []) = true →
    (low : Int) ≤ j → (j : Int) ≤ high →
    bisearchGo arr target fuel low high ≠ arr.length := by
  intro fuel
  induction fuel with
  | zero =>
    intro arr target low high j _ _ hfuel _ _ hlj hjh
    omega
  | succ f ih =>
    intro arr target low high j hs hhigh hfuel hj hpre hlj hjh
    have hle : (low : Int) ≤ high := le_trans hlj hjh
    have hlow2 : low ≤ high.toNat := by omega
    have hixlow : low ≤ (low + high.toNat) / 2 := by omega
    have hixhigh : (low + high.toNat) / 2 ≤ high.toNat := by omega
    simp only [bisearchGo, hle, if_true]
    set ix := (low + high.toNat) / 2 with hix
    have hixlen : ix < arr.length := by omega
    by_cases hpix : List.isPrefixOf target (arr.getD ix []) = true
    · simp only [hpix, if_true]
      omega
    · rw [Bool.not_eq_true] at hpix
      simp only [hpix, Bool.false_eq_true, if_false]
      by_cases hlt : pyLt target (arr.getD ix []) = true
      · simp only [hlt, if_true]
        have hjix : j < ix := by
          have hlt2 : pyLt (arr.getD j []) (arr.getD ix []) = true :=
            pyLt_ext_lt hpix hlt hpre
          by_cases hje : j = ix
          · rw [hje] at hpre; rw [hpre] at hpix; exact Bool.noConfusion hpix
          · by_cases hjgt : ix < j
            · have := sorted_getD_lt hs hixlen hj hjgt
              have hcontra := pyLt_trans hlt2 this
              rw [pyLt_irrefl] at hcontra
              exact Bool.noConfusion hcontra
            · omega
        exact ih arr target low ((ix : Int) - 1) j hs (by omega) (by omega) hj hpre hlj
          (by omega)
      · rw [Bool.not_eq_true] at hlt
        simp only [hlt, Bool.false_eq_true, if_false]
        have hixj : ix < j := by
          have hlt2 : pyLt (arr.getD ix []) (arr.getD j []) = true :=
            pyLt_lt_ext hpix hlt hpre
          by_cases hje : j = ix
          · rw [hje] at hpre; rw [hpre] at hpix; exact Bool.noConfusion hpix
          · by_cases hjlt : j < ix
            · have := sorted_getD_lt hs hj hixlen hjlt
              have hcontra := pyLt_trans hlt2 this
              rw [pyLt_irrefl] at hcontra
              exact Bool.noConfusion hcontra
            · omega
        exact ih arr target (ix + 1) high j hs hhigh (by omega) hj hpre (by omega) hjh

/-- Soundness of `bisearch` at the top level. -/
theorem bisearch_sound {arr : List (List Char)} {target : List Char}
    (hne : bisearch arr target ≠ arr.length) :
    bisearch arr target < arr.length ∧
      List.isPrefixOf target (arr.getD (bisearch arr target) []) = true :=
  bisearchGo_sound (arr.length + 1) arr target 0 ((arr.length : Int) - 1)
    (by omega) hne

/-- Completeness of `bisearch` at the top level. -/
theorem bisearch_complete {arr : List (List Char)} {target : List Char}
    (hs : arr.Pairwise (fun a b => pyLt a b = true)) {j : Nat}
    (hj : j < arr.length) (hpre : List.isPrefixOf target (arr.getD j []) = true) :
    bisearch arr target ≠ arr.length :=
  bisearchGo_complete (arr.length + 1) arr target 0 ((arr.length : Int) - 1) j hs
    (by omega) (by omega) hj hpre (by omega) (by omega)

/-! ### The sparse matrix -/

/-- Python exceptions observable from the embedded code. -/
inductive PyExn where
  | typeError
  | keyError
  | indexError
  | stateAlreadyExists
  | stateDoesNotExist
  deriving DecidableEq, Repr

/-- Python `bisect.insort_right` on a list of strings. -/
def insort_right : List (List Char) → List Char → List (List Char)
  | [], x => [x]
  | h :: t, x => if pyLt x h = true then x :: h :: t else h :: insort_right t x

/-- The sparse matrix: a list of entry strings kept sorted
(`SparseMatrix.__init__`). -/
structure SparseMatrix where
  list : List (List Char)
  deriving DecidableEq

def SparseMatrix.empty : SparseMatrix := ⟨[]⟩

/-- Python `SparseMatrix.find_index` and `__find_index`: binary search for the
key with the trailing separator; `None` when the probe returns `len(list)`. -/
def SparseMatrix.find_index (m : SparseMatrix) (s d : Nat) : Option Nat :=
  let index := bisearch m.list (pairKey s d)
  if index ≠ m.list.length then some index else none

/-- Python `SparseMatrix.__setitem__`: replace the entry found for the key, or
insert a fresh entry keeping the list sorted. -/
def SparseMatrix.setItem (m : SparseMatrix) (s d : Nat) (v : List Char) : SparseMatrix :=
  match m.find_index s d with
  | none => ⟨insort_right m.list (entryStr s d v)⟩
  | some i => ⟨m.list.set i (entryStr s d v)⟩

/-- Python `SparseMatrix.__contains__`: binary search for
`str(s) + "." + str(d)` with NO trailing separator. -/
def SparseMatrix.containsPair (m : SparseMatrix) (s d : Nat) : Bool :=
  bisearch m.list (containsKey s d) != m.list.length

/-- Python `SparseMatrix.find_edge`: the body is
`self.get_values(self.find_index(coordinates))[2]`, which passes a single
argument to the two-parameter static method `get_values(array, index)`; the
call therefore always raises `TypeError` before touching the list. -/
def SparseMatrix.find_edge (m : SparseMatrix) (s d : Nat) :
    Except PyExn (Option (List Char)) :=
  Except.error PyExn.typeError

/-- Python `SparseMatrix.__getitem__`: returns `find_edge`, raising `KeyError`
on `None`; since `find_edge` always raises `TypeError`, so does this. -/
def SparseMatrix.getItem (m : SparseMatrix) (s d : Nat) : Except PyExn (List Char) :=
  match m.find_edge s d with
  | Except.error e => Except.error e
  | Except.ok none => Except.error PyExn.keyError
  | Except.ok (some v) => Except.ok v

/-- The `(child_number, value)` pair extracted by `get_values` from an entry,
as used by `__find_children` (`(current[1], current[2])`). -/
def childOf (e : List Char) : Nat × List Char :=
  ((decodeE e).2.1, (decodeE e).2.2)

/-- The downward scan of `__find_children`: starting at index `i - 1` (the
argument is `i`), collect entries while they start with the key. -/
def collectDown (l : List (List Char)) (key : List Char) : Nat → List (Nat × List Char)
  | 0 => []
  | i + 1 =>
    if List.isPrefixOf key (l.getD i []) = true then
      childOf (l.getD i []) :: collectDown l key i
    else []

/-- The upward scan of `__find_children`: starting at index `idx`, collect
entries while in bounds and starting with the key.  `fuel ≥ len - idx` makes
the embedded loop total. -/
def collectUpGo (l : List (List Char)) (key : List Char) : Nat → Nat → List (Nat × List Char)
  | 0, _ => []
  | fuel + 1, idx =>
    if idx < l.length ∧ List.isPrefixOf key (l.getD idx []) = true then
      childOf (l.getD idx []) :: collectUpGo l key fuel (idx + 1)
    else []

theorem collectUpGo_succ (l : List (List Char)) (key : List Char) (f idx : Nat) :
    collectUpGo l key (f + 1) idx =
      if idx < l.length ∧ List.isPrefixOf key (l.getD idx []) = true then
        childOf (l.getD idx []) :: collectUpGo l key f (idx + 1)
      else [] := rfl

/-- Python `SparseMatrix.__find_children(search_list, item)`. -/
def find_children_in (searchList : List (List Char)) (item : Nat) :
    Option (List (Nat × List Char)) :=
  let key := srcKey item
  let index := bisearch searchList key
  if index ≠ searchList.length then
    some (childOf (searchList.getD index [])
      :: (collectDown searchList key index
          ++ collectUpGo searchList key searchList.length (index + 1)))
  else none

/-- Python `SparseMatrix.find_children`. -/
def SparseMatrix.find_children (m : SparseMatrix) (item : Nat) :
    Option (List (Nat × List Char)) :=
  find_children_in m.list item

/-- The destination-first re-encoding `f"{child}.{parent}.{props}"` used by
`get_parents`, built from the segments of `item.split('.', 2)`. -/
def swapEntry (e : List Char) : List Char :=
  let p1 := splitDot e
  let p2 := splitDot p1.2
  p2.1 ++ '.' :: (p1.1 ++ '.' :: p2.2)

/-- Python `SparseMatrix.get_parents`: rebuild a destination-sorted mirror of
the whole list, scan it for children of `i`, and keep the first components. -/
def SparseMatrix.get_parents (m : SparseMatrix) (i : Nat) : List Nat :=
  let reverse := m.list.foldl (fun acc item => insort_right acc (swapEntry item)) []
  match find_children_in reverse i with
  | some l => l.map Prod.fst
  | none => []

/-- Replay a list of `(source, destination, payload)` writes from the empty
matrix. -/
def fromPairs (l : List (Nat × Nat × List Char)) : SparseMatrix :=
  l.foldl (fun acc t => acc.setItem t.1 t.2.1 t.2.2) SparseMatrix.empty

/-- Modelled from the spec: `change_parent_of_children` is called by
`Graph.merge_states` but its implementation is not part of the provided
sources.  Per the specification of the adjacency index rewrite operations,
it redirects every edge whose source is the retired index onto the surviving
index, deduplicating when the rewritten pair collides with an existing entry
(later write wins); payloads are not summed. -/
def SparseMatrix.change_parent_of_children (m : SparseMatrix) (newIdx oldIdx : Nat) :
    SparseMatrix :=
  fromPairs (m.list.map (fun e =>
    let t := decodeE e
    (if t.1 = oldIdx then newIdx else t.1, t.2.1, t.2.2)))

/-- Modelled from the spec: `change_children_of_parents` is called by
`Graph.merge_states` but its implementation is not part of the provided
sources.  Per the specification of the adjacency index rewrite operations,
it redirects every edge whose destination is the retired index onto the
surviving index, deduplicating on collision (later write wins). -/
def SparseMatrix.change_children_of_parents (m : SparseMatrix) (oldIdx newIdx : Nat) :
    SparseMatrix :=
  fromPairs (m.list.map (fun e =>
    let t := decodeE e
    (t.1, if t.2.1 = oldIdx then newIdx else t.2.1, t.2.2)))

/-! ### Abstract view of the sparse matrix -/

/-- An entry is well formed when it is the encoding of its own decoding. -/
def wfEntry (e : List Char) : Bool :=
  decide (e = entryStr (decodeE e).1 (decodeE e).2.1 (decodeE e).2.2)

/-- The `(source, destination)` pair of an entry. -/
def pairOfE (e : List Char) : Nat × Nat := ((decodeE e).1, (decodeE e).2.1)

/-- Well-formedness invariant of a sparse matrix: all entries are encodings,
the list is sorted, and no pair occurs twice. -/
def SparseMatrix.WF (m : SparseMatrix) : Prop :=
  (∀ e ∈ m.list, wfEntry e = true) ∧
  m.list.Pairwise (fun a b => pyLt a b = true) ∧
  (m.list.map pairOfE).Nodup

/-- First entry with the given pair, decoded payload. -/
def findPairVal : List (List Char) → Nat × Nat → Option (List Char)
  | [], _ => none
  | e :: rest, p =>
    if pairOfE e = p then some (decodeE e).2.2 else findPairVal rest p

/-- The abstract content of the matrix at a pair. -/
def SparseMatrix.absFind (m : SparseMatrix) (p : Nat × Nat) : Option (List Char) :=
  findPairVal m.list p

/-- The last payload written for a pair by a sequence of writes. -/
def lastUpd : List (Nat × Nat × List Char) → Nat × Nat → Option (List Char)
  | [], _ => none
  | t :: rest, p =>
    match lastUpd rest p with
    | some w => some w
    | none => if (t.1, t.2.1) = p then some t.2.2 else none

/-! ### Lemmas about insertion and update -/

theorem mem_insort {l : List (List Char)} {x y : List Char} :
    y ∈ insort_right l x ↔ y = x ∨ y ∈ l := by
  induction l with
  | nil => simp [insort_right]
  | cons h t ih =>
    unfold insort_right
    by_cases hc : pyLt x h = true
    · simp [hc]
    · rw [bool_eq_false hc]
      simp only [Bool.false_eq_true, if_false, List.mem_cons, ih]
      tauto

theorem insort_perm (l : List (List Char)) (x : List Char) :
    List.Perm (insort_right l x) (x :: l) := by
  induction l with
  | nil => simp [insort_right]
  | cons h t ih =>
    by_cases hc : pyLt x h = true
    · simp [insort_right, hc]
    · simp only [insort_right, hc, if_false]
      exact (ih.cons h).trans (List.Perm.swap x h t)

theorem insort_sorted {l : List (List Char)} {x : List Char}
    (hs : l.Pairwise (fun a b => pyLt a b = true))
    (hne : ∀ y ∈ l, ¬x = y) :
    (insort_right l x).Pairwise (fun a b => pyLt a b = true) := by
  induction l with
  | nil => simp [insort_right]
  | cons h t ih =>
    rw [List.pairwise_cons] at hs
    by_cases hc : pyLt x h = true
    · simp only [insort_right, hc, if_true]
      refine List.Pairwise.cons ?_ (List.Pairwise.cons hs.1 hs.2)
      intro y hy
      rcases List.mem_cons.mp hy with rfl | hyt
      · exact hc
      · exact pyLt_trans hc (hs.1 y hyt)
    · unfold insort_right
      rw [bool_eq_false hc]
      simp only [Bool.false_eq_true, if_false]
      refine List.Pairwise.cons ?_ (ih hs.2 (fun y hy => hne y (List.mem_cons_of_mem h hy)))
      intro y hy
      rcases mem_insort.mp hy with hyx | hyt
      · rw [hyx]
        have hxh : ¬x = h := hne h (List.mem_cons_self h t)
        by_cases hhx : pyLt h x = true
        · exact hhx
        · exfalso
          exact hxh (pyLt_eq_of_not_lt (bool_eq_false hc) (bool_eq_false hhx))
      · exact hs.1 y hyt

/-- Under well-formedness, a successful `find_index` points at the entry for
the pair. -/
theorem find_index_some {m : SparseMatrix} (hwf : m.WF) {s d : Nat} {i : Nat}
    (h : m.find_index s d = some i) :
    i < m.list.length ∧ ∃ v, m.list.getD i [] = entryStr s d v := by
  unfold SparseMatrix.find_index at h
  by_cases hne : bisearch m.list (pairKey s d) ≠ m.list.length
  · rw [if_pos hne] at h
    have hie := Option.some.inj h
    obtain ⟨hlt, hpre⟩ := bisearch_sound hne
    rw [hie] at hlt hpre
    refine ⟨hlt, ?_⟩
    have hmem : m.list.getD i [] ∈ m.list := by
      rw [List.getD_eq_getElem m.list [] hlt]
      exact List.getElem_mem hlt
    have hwfe := hwf.1 _ hmem
    unfold wfEntry at hwfe
    rw [decide_eq_true_eq] at hwfe
    rw [hwfe] at hpre
    obtain ⟨h1, h2⟩ := pairKey_prefix_iff.mp hpre
    rw [← h1, ← h2] at hwfe
    exact ⟨_, hwfe⟩
  · rw [if_neg hne] at h
    exact Option.noConfusion h

/-- Under well-formedness, a failed `find_index` means the pair is absent. -/
theorem find_index_none {m : SparseMatrix} (hwf : m.WF) {s d : Nat}
    (h : m.find_index s d = none) : ∀ v, entryStr s d v ∉ m.list := by
  intro v hmem
  unfold SparseMatrix.find_index at h
  obtain ⟨j, hj, hje⟩ := List.mem_iff_getElem.mp hmem
  have hpre : List.isPrefixOf (pairKey s d) (m.list.getD j []) = true := by
    rw [List.getD_eq_getElem m.list [] hj, hje, entryStr_eq_pairKey_append]
    exact isPrefixOf_append_self _ _
  have hbc := bisearch_complete hwf.2.1 hj hpre
  rw [if_pos hbc] at h
  exact Option.noConfusion h

/-- A well-formed matrix has no entry for a pair reported absent by
`find_index`. -/
theorem find_index_none_pair {m : SparseMatrix} (hwf : m.WF) {s d : Nat}
    (h : m.find_index s d = none) : (s, d) ∉ m.list.map pairOfE := by
  intro hmem
  obtain ⟨e, hel, hep⟩ := List.mem_map.mp hmem
  have hwfe := hwf.1 e hel
  unfold wfEntry at hwfe
  rw [decide_eq_true_eq] at hwfe
  unfold pairOfE at hep
  have h1 : (decodeE e).1 = s := congrArg Prod.fst hep
  have h2 : (decodeE e).2.1 = d := congrArg Prod.snd hep
  have he2 := hwfe
  rw [h1, h2] at he2
  exact find_index_none hwf h _ (he2 ▸ hel)

theorem findPairVal_insort {l : List (List Char)} {s d : Nat} {v : List Char}
    (habs : (s, d) ∉ l.map pairOfE) :
    ∀ p, findPairVal (insort_right l (entryStr s d v)) p =
      if p = (s, d) then some v else findPairVal l p := by
  have hpe : pairOfE (entryStr s d v) = (s, d) := by
    unfold pairOfE
    rw [decodeE_entryStr]
  have hve : (decodeE (entryStr s d v)).2.2 = v := by rw [decodeE_entryStr]
  induction l with
  | nil =>
    intro p
    simp only [insort_right, findPairVal, hpe, hve]
    by_cases hp : p = (s, d)
    · simp [hp]
    · have hp2 : ¬(s, d) = p := fun hc => hp hc.symm
      simp [hp, hp2]
  | cons h t ih =>
    intro p
    simp only [List.map_cons, List.mem_cons, not_or] at habs
    by_cases hc : pyLt (entryStr s d v) h = true
    · simp only [insort_right, hc, if_true, findPairVal, hpe, hve]
      by_cases hp : p = (s, d)
      · simp [hp]
      · have hp2 : ¬(s, d) = p := fun hc2 => hp hc2.symm
        simp [hp, hp2, findPairVal]
    · simp only [insort_right, hc, if_false, findPairVal]
      by_cases hph : pairOfE h = p
      · have hp : ¬p = (s, d) := by
          intro hc2
          exact habs.1 (hph.trans hc2).symm
        simp [hph, hp]
      · simp only [hph, if_false]
        rw [ih habs.2 p]

theorem findPairVal_set : ∀ {l : List (List Char)} {i : Nat} {s d : Nat}
    {v : List Char}, (l.map pairOfE).Nodup → i < l.length →
    pairOfE (l.getD i []) = (s, d) →
    ∀ p, findPairVal (l.set i (entryStr s d v)) p =
      if p = (s, d) then some v else findPairVal l p := by
  intro l
  induction l with
  | nil => intro i s d v _ hi; simp at hi
  | cons h t ih =>
    intro i s d v hnd hi hpi p
    have hpe : pairOfE (entryStr s d v) = (s, d) := by
      unfold pairOfE
      rw [decodeE_entryStr]
    have hve : (decodeE (entryStr s d v)).2.2 = v := by rw [decodeE_entryStr]
    rw [List.map_cons, List.nodup_cons] at hnd
    cases i with
    | zero =>
      simp only [List.getD_cons_zero] at hpi
      simp only [List.set_cons_zero, findPairVal, hpe, hve]
      by_cases hp : p = (s, d)
      · simp [hp]
      · have hp2 : ¬(s, d) = p := fun hc => hp hc.symm
        simp only [hp, if_false, hp2, hpi]
    | succ i2 =>
      simp only [List.getD_cons_succ] at hpi
      simp only [List.set_cons_succ, findPairVal]
      have hi2 : i2 < t.length := by simpa using hi
      have hmm : (s, d) ∈ List.map pairOfE t := by
        rw [← hpi, List.getD_eq_getElem t [] hi2]
        exact List.mem_map_of_mem pairOfE (List.getElem_mem hi2)
      by_cases hph : pairOfE h = p
      · have hp : ¬p = (s, d) := by
          intro hc
          apply hnd.1
          rw [hph.trans hc]
          exact hmm
        simp [hph, hp]
      · simp only [hph, if_false]
        exact ih hnd.2 (by simpa using hi) hpi p

theorem wfEntry_entryStr (s d : Nat) (v : List Char) : wfEntry (entryStr s d v) = true := by
  unfold wfEntry
  rw [decide_eq_true_eq, decodeE_entryStr]

/-- A well-formed entry is the encoding of its decoded components. -/
theorem wf_decomp {e : List Char} (h : wfEntry e = true) :
    e = entryStr (decodeE e).1 (decodeE e).2.1 (decodeE e).2.2 := by
  unfold wfEntry at h
  rwa [decide_eq_true_eq] at h

theorem pairOfE_entryStr (s d : Nat) (v : List Char) : pairOfE (entryStr s d v) = (s, d) := by
  unfold pairOfE
  rw [decodeE_entryStr]

theorem setItem_WF {m : SparseMatrix} (hwf : m.WF) (s d : Nat) (v : List Char) :
    (m.setItem s d v).WF := by
  unfold SparseMatrix.setItem
  cases hfi : m.find_index s d with
  | none =>
    have habs := find_index_none_pair hwf hfi
    refine ⟨?_, ?_, ?_⟩
    · intro e he
      rcases mem_insort.mp he with rfl | hel
      · exact wfEntry_entryStr s d v
      · exact hwf.1 e hel
    · refine insort_sorted hwf.2.1 ?_
      intro y hy hne
      apply habs
      rw [← hne] at hy
      rw [← pairOfE_entryStr s d v]
      exact List.mem_map_of_mem pairOfE hy
    · have hperm : List.Perm ((insort_right m.list (entryStr s d v)).map pairOfE)
          ((entryStr s d v :: m.list).map pairOfE) :=
        (insort_perm m.list (entryStr s d v)).map pairOfE
      rw [hperm.nodup_iff]
      simp only [List.map_cons, List.nodup_cons, pairOfE_entryStr]
      exact ⟨habs, hwf.2.2⟩
  | some i =>
    obtain ⟨hlt, vOld, hgd⟩ := find_index_some hwf hfi
    show SparseMatrix.WF ⟨m.list.set i (entryStr s d v)⟩
    have hgi : m.list[i] = entryStr s d vOld := by
      rw [← List.getD_eq_getElem m.list [] hlt]
      exact hgd
    have hmapeq : (m.list.set i (entryStr s d v)).map pairOfE = m.list.map pairOfE := by
      refine List.ext_getElem (by simp) ?_
      intro j h1 h2
      simp only [List.getElem_map]
      by_cases hji : j = i
      · subst hji
        rw [List.getElem_set_self (by simpa using h1), hgi, pairOfE_entryStr, pairOfE_entryStr]
      · rw [List.getElem_set_ne (fun hc => hji hc.symm) _]
    have hpair_ne : ∀ u, u < m.list.length → u ≠ i →
        ¬((decodeE (m.list.getD u [])).1 = s ∧ (decodeE (m.list.getD u [])).2.1 = d) := by
      intro u hu hui hc
      have h1 : pairOfE (m.list.getD u []) = pairOfE (m.list.getD i []) := by
        unfold pairOfE
        rw [hc.1, hc.2, hgd, decodeE_entryStr]
      have hu2 : u < (m.list.map pairOfE).length := by simpa using hu
      have hi2 : i < (m.list.map pairOfE).length := by simpa using hlt
      have h2 : (m.list.map pairOfE)[u] = (m.list.map pairOfE)[i] := by
        rw [List.getElem_map, List.getElem_map,
          ← List.getD_eq_getElem m.list [] hu, ← List.getD_eq_getElem m.list [] hlt]
        exact h1
      exact hui ((List.Nodup.getElem_inj_iff hwf.2.2).mp h2)
    refine ⟨?_, ?_, ?_⟩
    · intro e he
      rcases List.mem_or_eq_of_mem_set he with hel | rfl
      · exact hwf.1 e hel
      · exact wfEntry_entryStr s d v
    · rw [List.pairwise_iff_getElem]
      intro j k hj hk hjk
      have hjl : j < m.list.length := by simpa using hj
      have hkl : k < m.list.length := by simpa using hk
      have hsorted := List.pairwise_iff_getElem.mp hwf.2.1
      rw [List.getElem_set hj, List.getElem_set hk]
      by_cases hji : j = i
      · have hki : k ≠ i := by omega
        rw [if_pos hji.symm, if_neg (fun hc => hki hc.symm)]
        have hwfk := hwf.1 _ (List.getElem_mem hkl)
        have hdk := wf_decomp hwfk
        have hne1 : ¬(s = (decodeE m.list[k]).1 ∧ d = (decodeE m.list[k]).2.1) := by
          intro hc
          refine hpair_ne k hkl hki ?_
          rw [List.getD_eq_getElem m.list [] hkl]
          exact ⟨hc.1.symm, hc.2.symm⟩
        rw [hdk, entry_lt_key _ _ hne1, ← entry_lt_key vOld ((decodeE m.list[k]).2.2) hne1,
          ← hdk, ← hgi]
        rw [hji] at hjk
        exact hsorted i k hlt hkl hjk
      · by_cases hki : k = i
        · rw [if_neg (fun hc => hji hc.symm), if_pos hki.symm]
          have hwfj := hwf.1 _ (List.getElem_mem hjl)
          have hdj := wf_decomp hwfj
          have hne1 : ¬((decodeE m.list[j]).1 = s ∧ (decodeE m.list[j]).2.1 = d) := by
            intro hc
            refine hpair_ne j hjl hji ?_
            rw [List.getD_eq_getElem m.list [] hjl]
            exact hc
          rw [hdj, entry_lt_key _ _ hne1, ← entry_lt_key ((decodeE m.list[j]).2.2) vOld hne1,
            ← hdj, ← hgi]
          rw [hki] at hjk
          exact hsorted j i hjl hlt hjk
        · rw [if_neg (fun hc => hji hc.symm), if_neg (fun hc => hki hc.symm)]
          exact hsorted j k hjl hkl hjk
    · rw [hmapeq]
      exact hwf.2.2

theorem absFind_setItem {m : SparseMatrix} (hwf : m.WF) (s d : Nat) (v : List Char)
    (p : Nat × Nat) :
    (m.setItem s d v).absFind p = if p = (s, d) then some v else m.absFind p := by
  unfold SparseMatrix.setItem SparseMatrix.absFind
  cases hfi : m.find_index s d with
  | none => exact findPairVal_insort (find_index_none_pair hwf hfi) p
  | some i =>
    obtain ⟨hlt, vOld, hgd⟩ := find_index_some hwf hfi
    have hp : pairOfE (m.list.getD i []) = (s, d) := by
      rw [hgd, pairOfE_entryStr]
    exact findPairVal_set hwf.2.2 hlt hp p

theorem findPairVal_mem : ∀ {l : List (List Char)}, (∀ e ∈ l, wfEntry e = true) →
    (l.map pairOfE).Nodup → ∀ {s d : Nat} {v : List Char},
    (findPairVal l (s, d) = some v ↔ entryStr s d v ∈ l) := by
  intro l
  induction l with
  | nil => intro _ _ s d v; simp [findPairVal]
  | cons e rest ih =>
    intro hwf hnd s d v
    rw [List.map_cons, List.nodup_cons] at hnd
    have hwfe := wf_decomp (hwf e (List.mem_cons_self e rest))
    by_cases hpe : pairOfE e = (s, d)
    · have h1 : (decodeE e).1 = s := congrArg Prod.fst hpe
      have h2 : (decodeE e).2.1 = d := congrArg Prod.snd hpe
      simp only [findPairVal, hpe, if_true, Option.some.injEq]
      constructor
      · intro hv
        have he : entryStr s d v = e := by rw [hwfe, h1, h2, hv]
        exact List.mem_cons.mpr (Or.inl he)
      · intro hmem
        rcases List.mem_cons.mp hmem with he | hrest
        · rw [hwfe, h1, h2] at he
          exact (entryStr_inj he.symm).2.2
        · exfalso
          apply hnd.1
          rw [hpe, ← pairOfE_entryStr s d v]
          exact List.mem_map_of_mem pairOfE hrest
    · simp only [findPairVal, hpe, if_false]
      rw [ih (fun e2 he2 => hwf e2 (List.mem_cons_of_mem e he2)) hnd.2]
      constructor
      · exact fun h => List.mem_cons_of_mem e h
      · intro hmem
        rcases List.mem_cons.mp hmem with he | hrest
        · exfalso
          apply hpe
          rw [← he, pairOfE_entryStr]
        · exact hrest

theorem absFind_mem {m : SparseMatrix} (hwf : m.WF) {s d : Nat} {v : List Char} :
    m.absFind (s, d) = some v ↔ entryStr s d v ∈ m.list :=
  findPairVal_mem hwf.1 hwf.2.2

theorem empty_WF : SparseMatrix.empty.WF := by
  refine ⟨?_, ?_, ?_⟩ <;> simp [SparseMatrix.empty]

theorem foldl_setItem_WF : ∀ (l : List (Nat × Nat × List Char)) (m : SparseMatrix),
    m.WF → (l.foldl (fun acc t => acc.setItem t.1 t.2.1 t.2.2) m).WF := by
  intro l
  induction l with
  | nil => intro m hwf; exact hwf
  | cons t rest ih =>
    intro m hwf
    exact ih (m.setItem t.1 t.2.1 t.2.2) (setItem_WF hwf t.1 t.2.1 t.2.2)

theorem foldl_setItem_absFind : ∀ (l : List (Nat × Nat × List Char)) (m : SparseMatrix),
    m.WF → ∀ p, (l.foldl (fun acc t => acc.setItem t.1 t.2.1 t.2.2) m).absFind p =
      match lastUpd l p with
      | some w => some w
      | none => m.absFind p := by
  intro l
  induction l with
  | nil => intro m _ p; simp [lastUpd]
  | cons t rest ih =>
    intro m hwf p
    rw [List.foldl_cons, ih (m.setItem t.1 t.2.1 t.2.2) (setItem_WF hwf t.1 t.2.1 t.2.2) p]
    show _ = (match lastUpd (t :: rest) p with
      | some w => some w
      | none => m.absFind p)
    rw [show lastUpd (t :: rest) p = (match lastUpd rest p with
      | some w => some w
      | none => if (t.1, t.2.1) = p then some t.2.2 else none) from rfl]
    cases hl : lastUpd rest p with
    | some w => rfl
    | none =>
      simp only
      rw [absFind_setItem hwf t.1 t.2.1 t.2.2 p]
      by_cases hp : p = (t.1, t.2.1)
      · rw [if_pos hp, if_pos hp.symm]
      · rw [if_neg hp, if_neg (fun hc => hp hc.symm)]

theorem fromPairs_WF (l : List (Nat × Nat × List Char)) : (fromPairs l).WF :=
  foldl_setItem_WF l SparseMatrix.empty empty_WF

theorem fromPairs_absFind (l : List (Nat × Nat × List Char)) (p : Nat × Nat) :
    (fromPairs l).absFind p = lastUpd l p := by
  unfold fromPairs
  rw [foldl_setItem_absFind l SparseMatrix.empty empty_WF p]
  cases hl : lastUpd l p with
  | some w => rfl
  | none => rfl

theorem lastUpd_ne_none_iff : ∀ (l : List (Nat × Nat × List Char)) (p : Nat × Nat),
    lastUpd l p ≠ none ↔ p ∈ l.map (fun t => (t.1, t.2.1)) := by
  intro l
  induction l with
  | nil => intro p; simp [lastUpd]
  | cons t rest ih =>
    intro p
    rw [show lastUpd (t :: rest) p = (match lastUpd rest p with
      | some w => some w
      | none => if (t.1, t.2.1) = p then some t.2.2 else none) from rfl]
    rw [List.map_cons, List.mem_cons]
    cases hl : lastUpd rest p with
    | some w =>
      simp only
      have : p ∈ rest.map (fun t => (t.1, t.2.1)) := (ih p).mp (by rw [hl]; exact fun hc => Option.noConfusion hc)
      constructor
      · intro _; exact Or.inr this
      · intro _; exact fun hc => Option.noConfusion hc
    | none =>
      simp only
      have hnr : p ∉ rest.map (fun t => (t.1, t.2.1)) := by
        intro hc
        exact ((ih p).mpr hc) hl
      by_cases hp : (t.1, t.2.1) = p
      · rw [if_pos hp]
        constructor
        · intro _; exact Or.inl hp.symm
        · intro _; exact fun hc => Option.noConfusion hc
      · rw [if_neg hp]
        constructor
        · intro hc; exact absurd rfl hc
        · intro hmem
          rcases hmem with hc | hc
          · exact absurd hc.symm hp
          · exact absurd hc hnr

/-! ### Exactness of the children scan -/

theorem prefix_block_contiguous {l : List (List Char)}
    (hs : l.Pairwise (fun a b => pyLt a b = true)) {key : List Char} {i k j : Nat}
    (hi : i < l.length) (hj : j < l.length)
    (hpi : List.isPrefixOf key (l.getD i []) = true)
    (hpj : List.isPrefixOf key (l.getD j []) = true)
    (hik : i ≤ k) (hkj : k ≤ j) :
    List.isPrefixOf key (l.getD k []) = true := by
  have hk : k < l.length := by omega
  by_cases hpk : List.isPrefixOf key (l.getD k []) = true
  · exact hpk
  · exfalso
    have hpk2 : List.isPrefixOf key (l.getD k []) = false := bool_eq_false hpk
    by_cases hlt : pyLt key (l.getD k []) = true
    · have hjk : pyLt (l.getD j []) (l.getD k []) = true := pyLt_ext_lt hpk2 hlt hpj
      by_cases hkje : k = j
      · rw [hkje] at hpk; exact hpk hpj
      · have hkj2 : k < j := by omega
        have := sorted_getD_lt hs hk hj hkj2
        have hko := pyLt_trans hjk this
        rw [pyLt_irrefl] at hko
        exact Bool.noConfusion hko
    · have hki : pyLt (l.getD k []) (l.getD i []) = true :=
        pyLt_lt_ext hpk2 (bool_eq_false hlt) hpi
      by_cases hkie : i = k
      · rw [← hkie] at hpk; exact hpk hpi
      · have hik2 : i < k := by omega
        have := sorted_getD_lt hs hi hk hik2
        have hko := pyLt_trans hki this
        rw [pyLt_irrefl] at hko
        exact Bool.noConfusion hko

theorem collectDown_mem {l : List (List Char)}
    (hs : l.Pairwise (fun a b => pyLt a b = true)) {key : List Char} {j2 : Nat}
    (hj2len : j2 < l.length) (hpj2 : List.isPrefixOf key (l.getD j2 []) = true) :
    ∀ n, n ≤ j2 + 1 → ∀ x,
    (x ∈ collectDown l key n ↔
      ∃ j, j < n ∧ j < l.length ∧ List.isPrefixOf key (l.getD j []) = true ∧
        x = childOf (l.getD j [])) := by
  intro n
  induction n with
  | zero =>
    intro _ x
    simp [collectDown]
  | succ n2 ih =>
    intro hn x
    have hn2len : n2 < l.length := by omega
    by_cases hpn : List.isPrefixOf key (l.getD n2 []) = true
    · simp only [collectDown, hpn, if_true, List.mem_cons]
      rw [ih (by omega) x]
      constructor
      · intro hor
        rcases hor with rfl | ⟨j, hj1, hj2b, hj3, hj4⟩
        · exact ⟨n2, by omega, hn2len, hpn, rfl⟩
        · exact ⟨j, by omega, hj2b, hj3, hj4⟩
      · rintro ⟨j, hj1, hj2b, hj3, hj4⟩
        by_cases hje : j = n2
        · left; rw [hj4, hje]
        · right; exact ⟨j, by omega, hj2b, hj3, hj4⟩
    · have hpn2 := bool_eq_false hpn
      simp only [collectDown, hpn2, Bool.false_eq_true, if_false, List.not_mem_nil, false_iff,
        not_exists]
      rintro j ⟨hj1, hj2b, hj3, _⟩
      apply hpn
      exact prefix_block_contiguous hs hj2b hj2len hj3 hpj2 (by omega) (by omega)

theorem collectUpGo_mem {l : List (List Char)}
    (hs : l.Pairwise (fun a b => pyLt a b = true)) {key : List Char} {j2 : Nat}
    (hj2len : j2 < l.length) (hpj2 : List.isPrefixOf key (l.getD j2 []) = true) :
    ∀ (fuel n : Nat), l.length ≤ fuel + n → j2 < n → ∀ x,
    (x ∈ collectUpGo l key fuel n ↔
      ∃ j, n ≤ j ∧ j < l.length ∧ List.isPrefixOf key (l.getD j []) = true ∧
        x = childOf (l.getD j [])) := by
  intro fuel
  induction fuel with
  | zero =>
    intro n hfn _ x
    simp only [collectUpGo, List.not_mem_nil, false_iff, not_exists]
    rintro j ⟨hj1, hj2b, _, _⟩
    omega
  | succ f ih =>
    intro n hfn hj2n x
    by_cases hcond : n < l.length ∧ List.isPrefixOf key (l.getD n []) = true
    · rw [collectUpGo_succ, if_pos hcond]
      simp only [List.mem_cons]
      rw [ih (n + 1) (by omega) (by omega) x]
      constructor
      · intro hor
        rcases hor with rfl | ⟨j, hj1, hj2b, hj3, hj4⟩
        · exact ⟨n, by omega, hcond.1, hcond.2, rfl⟩
        · exact ⟨j, by omega, hj2b, hj3, hj4⟩
      · rintro ⟨j, hj1, hj2b, hj3, hj4⟩
        by_cases hje : j = n
        · left; rw [hj4, hje]
        · right; exact ⟨j, by omega, hj2b, hj3, hj4⟩
    · rw [collectUpGo_succ, if_neg hcond]
      simp only [List.not_mem_nil, false_iff, not_exists]
      rintro j ⟨hj1, hj2b, hj3, _⟩
      apply hcond
      have hnlen : n < l.length := by omega
      exact ⟨hnlen, prefix_block_contiguous hs hj2len hj2b hpj2 hj3 (by omega) (by omega)⟩

/-- A decoded child at a prefix-matching position corresponds to the stored
pair for the scanned source. -/
theorem childOf_findPairVal {l : List (List Char)}
    (hwfl : ∀ e ∈ l, wfEntry e = true) (hnd : (l.map pairOfE).Nodup) {item j : Nat}
    (hj : j < l.length) (hpj : List.isPrefixOf (srcKey item) (l.getD j []) = true)
    {x : Nat × List Char} (hx : x = childOf (l.getD j [])) :
    findPairVal l (item, x.1) = some x.2 := by
  have hmem : l.getD j [] ∈ l := by
    rw [List.getD_eq_getElem l [] hj]
    exact List.getElem_mem hj
  have hwfe := wf_decomp (hwfl _ hmem)
  rw [hwfe] at hpj
  have hsrc : item = (decodeE (l.getD j [])).1 := srcKey_prefix_iff.mp hpj
  have hxc : x = ((decodeE (l.getD j [])).2.1, (decodeE (l.getD j [])).2.2) := hx
  rw [findPairVal_mem hwfl hnd]
  rw [hxc]
  simp only
  rw [hsrc, ← hwfe]
  exact hmem

/-- The list returned by `find_children` (empty when `None`) holds exactly the
stored destination/payload pairs of the given source. -/
theorem find_children_in_exact {l : List (List Char)}
    (hwfl : ∀ e ∈ l, wfEntry e = true)
    (hs : l.Pairwise (fun a b => pyLt a b = true))
    (hnd : (l.map pairOfE).Nodup) (item d : Nat) (v : List Char) :
    ((d, v) ∈ (find_children_in l item).getD [] ↔ findPairVal l (item, d) = some v) := by
  unfold find_children_in
  by_cases hne : bisearch l (srcKey item) ≠ l.length
  · rw [if_pos hne]
    obtain ⟨hlt, hpre⟩ := bisearch_sound hne
    simp only [Option.getD_some, List.mem_cons, List.mem_append]
    rw [collectDown_mem hs hlt hpre (bisearch l (srcKey item)) (by omega) (d, v),
        collectUpGo_mem hs hlt hpre l.length (bisearch l (srcKey item) + 1) (by omega)
          (by omega) (d, v)]
    constructor
    · intro hor
      rcases hor with hhead | ⟨j, _, hj2b, hj3, hj4⟩ | ⟨j, _, hj2b, hj3, hj4⟩
      · exact childOf_findPairVal hwfl hnd hlt hpre hhead
      · exact childOf_findPairVal hwfl hnd hj2b hj3 hj4
      · exact childOf_findPairVal hwfl hnd hj2b hj3 hj4
    · intro hfv
      have hmem : entryStr item d v ∈ l := (findPairVal_mem hwfl hnd).mp hfv
      obtain ⟨j, hj, hje⟩ := List.mem_iff_getElem.mp hmem
      have hpj : List.isPrefixOf (srcKey item) (l.getD j []) = true := by
        rw [List.getD_eq_getElem l [] hj, hje]
        exact srcKey_prefix_iff.mpr rfl
      have hcj : childOf (l.getD j []) = (d, v) := by
        rw [List.getD_eq_getElem l [] hj, hje]
        unfold childOf
        rw [decodeE_entryStr]
      by_cases hjb : j = bisearch l (srcKey item)
      · left
        rw [← hcj, hjb]
      · by_cases hjlt : j < bisearch l (srcKey item)
        · right; left
          exact ⟨j, hjlt, hj, hpj, hcj.symm⟩
        · right; right
          exact ⟨j, by omega, hj, hpj, hcj.symm⟩
  · rw [if_neg hne]
    simp only [Option.getD_none, List.not_mem_nil, false_iff]
    intro hfv
    have hmem : entryStr item d v ∈ l := (findPairVal_mem hwfl hnd).mp hfv
    obtain ⟨j, hj, hje⟩ := List.mem_iff_getElem.mp hmem
    have hpj : List.isPrefixOf (srcKey item) (l.getD j []) = true := by
      rw [List.getD_eq_getElem l [] hj, hje]
      exact srcKey_prefix_iff.mpr rfl
    exact hne (bisearch_complete hs hj hpj)

/-! ### Python dictionaries and the object heap -/

/-- Lookup in an insertion-ordered association list (Python `d[k]` or
`k in d`; first matching key wins, keys are unique in any real dict). -/
def dictGet {α : Type} : List (Nat × α) → Nat → Option α
  | [], _ => none
  | (k2, v) :: t, k => if k2 = k then some v else dictGet t k

/-- Python `d[k] = v`: replace in place if the key exists, append otherwise. -/
def dictSet {α : Type} : List (Nat × α) → Nat → α → List (Nat × α)
  | [], k, v => [(k, v)]
  | (k2, v2) :: t, k, v => if k2 = k then (k, v) :: t else (k2, v2) :: dictSet t k v

/-- Python `del d[k]` (the key is present in every reachable call; on an
absent key Python would raise `KeyError`, which the callers below check for
where the source can reach it). -/
def dictDel {α : Type} : List (Nat × α) → Nat → List (Nat × α)
  | [], _ => []
  | (k2, v2) :: t, k => if k2 = k then t else (k2, v2) :: dictDel t k

theorem dictGet_dictSet_eq {α : Type} : ∀ (d : List (Nat × α)) (k : Nat) (v : α),
    dictGet (dictSet d k v) k = some v := by
  intro d
  induction d with
  | nil => intro k v; simp [dictGet, dictSet]
  | cons h t ih =>
    intro k v
    by_cases hk : h.1 = k
    · simp [dictSet, dictGet, hk]
    · simp only [dictSet, dictGet]
      rw [if_neg hk, show dictGet ((h.1, h.2) :: dictSet t k v) k
        = if h.1 = k then some h.2 else dictGet (dictSet t k v) k from rfl,
        if_neg hk]
      exact ih k v

theorem dictGet_dictSet_ne {α : Type} : ∀ (d : List (Nat × α)) (k k2 : Nat) (v : α),
    k2 ≠ k → dictGet (dictSet d k v) k2 = dictGet d k2 := by
  intro d
  induction d with
  | nil =>
    intro k k2 v hne
    simp only [dictSet, dictGet]
    rw [if_neg (fun hc => hne hc.symm)]
  | cons h t ih =>
    intro k k2 v hne
    by_cases hk : h.1 = k
    · simp only [dictSet]
      rw [if_pos hk]
      show (if k = k2 then some v else dictGet t k2) = _
      rw [if_neg (fun hc => hne hc.symm)]
      show _ = if h.1 = k2 then some h.2 else dictGet t k2
      rw [if_neg (fun hc => hne ((hk.symm.trans hc).symm))]
    · simp only [dictSet]
      rw [if_neg hk]
      show (if h.1 = k2 then some h.2 else dictGet (dictSet t k v) k2)
        = if h.1 = k2 then some h.2 else dictGet t k2
      by_cases hk2 : h.1 = k2
      · rw [if_pos hk2, if_pos hk2]
      · rw [if_neg hk2, if_neg hk2, ih k k2 v hne]

theorem dictGet_dictDel_ne {α : Type} : ∀ (d : List (Nat × α)) (k k2 : Nat),
    k2 ≠ k → dictGet (dictDel d k) k2 = dictGet d k2 := by
  intro d
  induction d with
  | nil => intro k k2 _; rfl
  | cons h t ih =>
    intro k k2 hne
    simp only [dictDel]
    by_cases hk : h.1 = k
    · rw [if_pos hk]
      show _ = if h.1 = k2 then some h.2 else dictGet t k2
      rw [if_neg (fun hc => hne ((hk.symm.trans hc).symm))]
    · rw [if_neg hk]
      show (if h.1 = k2 then some h.2 else dictGet (dictDel t k) k2)
        = if h.1 = k2 then some h.2 else dictGet t k2
      by_cases hk2 : h.1 = k2
      · rw [if_pos hk2, if_pos hk2]
      · rw [if_neg hk2, if_neg hk2, ih k k2 hne]

theorem dictGet_dictDel_eq {α : Type} : ∀ (d : List (Nat × α)) (k : Nat),
    (d.map Prod.fst).Nodup → dictGet (dictDel d k) k = none := by
  intro d
  induction d with
  | nil => intro k _; rfl
  | cons h t ih =>
    intro k hnd
    rw [List.map_cons, List.nodup_cons] at hnd
    simp only [dictDel]
    by_cases hk : h.1 = k
    · rw [if_pos hk]
      cases hg : dictGet t k with
      | none => rfl
      | some v =>
        exfalso
        apply hnd.1
        rw [hk]
        clear ih hnd
        induction t with
        | nil => exact Option.noConfusion hg
        | cons h2 t2 ih2 =>
          simp only [dictGet] at hg
          by_cases hk2 : h2.1 = k
          · rw [List.map_cons]
            exact List.mem_cons.mpr (Or.inl hk2.symm)
          · rw [if_neg hk2] at hg
            exact List.mem_cons.mpr (Or.inr (ih2 hg))
    · rw [if_neg hk]
      show (if h.1 = k then some h.2 else dictGet (dictDel t k) k) = none
      rw [if_neg hk]
      exact ih k hnd.2

theorem dictDel_length {α : Type} : ∀ (d : List (Nat × α)) (k : Nat) (v : α),
    dictGet d k = some v → (dictDel d k).length = d.length - 1 := by
  intro d
  induction d with
  | nil => intro k v hg; exact Option.noConfusion hg
  | cons h t ih =>
    intro k v hg
    simp only [dictGet] at hg
    simp only [dictDel]
    by_cases hk : h.1 = k
    · rw [if_pos hk]
      simp
    · rw [if_neg hk] at hg
      rw [if_neg hk, List.length_cons, List.length_cons, ih k v hg]
      have : t.length ≥ 1 := by
        cases t with
        | nil => exact Option.noConfusion hg
        | cons h2 t2 => simp
      omega

/-! ### The graph -/

/-- The fields of a Python `State` object (`state.py`): the template list held
by its (interned) `StateProperties` and the terminal flag. -/
structure StateData where
  log_templates : List String
  is_terminal : Bool
  deriving DecidableEq, Repr

/-- The graph of `graph.py`.  `search` is the external template resolver
(modelled from the spec: `syntax_tree.search` maps a raw line to a template or
`None`; its class is not part of the provided sources).  `heap` maps Python
object identities (`id(state)`) to the current fields of each `State` object;
`states`, `state_indices_by_id` and `prop_by_hash` model the dicts of the same
names, with `prop_by_hash` keyed by the template-list content standing for
`StateProperties.get_prop_hash()` (collision-free content hash); `start_node`
holds the identity of the start state, if any. -/
structure Graph where
  search : String → Option String
  edges : SparseMatrix
  states : List (Nat × Nat)
  state_indices_by_id : List (Nat × Nat)
  prop_by_hash : List (List String)
  start_node : Option Nat
  heap : List (Nat × StateData)

/-- Fields of the state object with identity `sid`.  Reachable code only
dereferences identities that are live in the heap. -/
def Graph.heapGet (g : Graph) (sid : Nat) : StateData :=
  (dictGet g.heap sid).getD ⟨[], false⟩

/-- Python `template_matches_state` (module-level utility in `graph.py`). -/
def template_matches_state (template : String) (sd : StateData) : Bool :=
  decide (template ∈ sd.log_templates)

/-- Python `state in graph`, i.e. `Graph.__contains__`:
`id(item) in self.state_indices_by_id`. -/
def Graph.containsState (g : Graph) (sid : Nat) : Bool :=
  (dictGet g.state_indices_by_id sid).isSome

/-- Python `Graph.get_state_by_id`: raises `StateDoesNotExistException` when
the identity is not indexed. -/
def Graph.get_state_by_id (g : Graph) (state_id : Nat) : Except PyExn Nat :=
  match dictGet g.state_indices_by_id state_id with
  | none => Except.error PyExn.stateDoesNotExist
  | some idx =>
    match dictGet g.states idx with
    | none => Except.error PyExn.keyError
    | some sid => Except.ok sid

/-- Python `Graph.add_state`.  Raises `StateAlreadyExistsException` when the
identity is present; otherwise stores the state at index `len(self.states)`
and interns its properties. -/
def Graph.add_state (g : Graph) (sid : Nat) : Except PyExn Unit × Graph :=
  if g.containsState sid then (Except.error PyExn.stateAlreadyExists, g)
  else
    let curr_index := g.states.length
    let states2 := dictSet g.states curr_index sid
    let indices2 := dictSet g.state_indices_by_id sid curr_index
    let st := g.heapGet sid
    if st.log_templates ∈ g.prop_by_hash then
      (Except.ok (), { g with states := states2, state_indices_by_id := indices2 })
    else
      (Except.ok (), { g with
        states := states2
        state_indices_by_id := indices2
        prop_by_hash := g.prop_by_hash ++ [st.log_templates] })

/-- Modelled from the spec: `EdgeProperties` (module `edge_properties.py` is
not part of the provided sources).  Per the data model it carries
`pass_count ≥ 1`, string-encoded; `str(props)` is its decimal form and the
default-constructed value is one pass. -/
def edgePropsStr (passes : Nat) : List Char := natChars passes

/-- Python `Graph.add_edge`: `False` when an endpoint identity is unknown or
`(start_index, end_index) in self.edges` holds; otherwise stores
`str(props)`. -/
def Graph.add_edge (g : Graph) (startId endId : Nat) (props : Nat) : Bool × Graph :=
  match dictGet g.state_indices_by_id startId, dictGet g.state_indices_by_id endId with
  | some start_index, some end_index =>
    if g.edges.containsPair start_index end_index then (false, g)
    else (true, { g with edges := g.edges.setItem start_index end_index (edgePropsStr props) })
  | some _, none => (false, g)
  | none, _ => (false, g)

/-- Python `Graph.size` and `Graph.__len__`. -/
def Graph.size (g : Graph) : Nat := g.states.length

/-- The state object stored at a dense index (`self.states[idx]`); Python
raises `KeyError` on a dangling index, so theorems about the query methods
restrict to graphs whose edges reference live indices. -/
def Graph.stateAt (g : Graph) (idx : Nat) : Nat :=
  (dictGet g.states idx).getD 0

/-- Python `Graph.get_outgoing_states`: `None` for an unknown state; for a
known state, the list of child states from `find_children` (empty when that
returns `None`). -/
def Graph.get_outgoing_states (g : Graph) (sid : Nat) : Option (List Nat) :=
  if g.containsState sid then
    match g.edges.find_children ((dictGet g.state_indices_by_id sid).getD 0) with
    | some results => some (results.map (fun r => g.stateAt r.1))
    | none => some []
  else none

/-- Python `Graph.get_outgoing_states_not_self`: filters self-loops out of
`get_outgoing_states`, but collapses both the `None` result and the empty
result to `[]` through the truthiness test `if outgoing:`. -/
def Graph.get_outgoing_states_not_self (g : Graph) (current : Nat) : List Nat :=
  match g.get_outgoing_states current with
  | some outgoing => if outgoing ≠ [] then outgoing.filter (fun x => x ≠ current) else []
  | none => []

/-- Python `Graph.get_incoming_states`: `None` for an unknown state, else the
mapped `get_parents` list (the truthiness test collapses the empty list to
the literal `[]`, the same value). -/
def Graph.get_incoming_states (g : Graph) (sid : Nat) : Option (List Nat) :=
  if g.containsState sid then
    some ((g.edges.get_parents ((dictGet g.state_indices_by_id sid).getD 0)).map
      (fun r => g.stateAt r))
  else none

/-- Python `Graph.update_edge`: `False` when an endpoint is unknown or the
pair is not in the index; otherwise reads the edge through `__getitem__`
(which always raises `TypeError`, see `find_edge`) before writing back the
incremented count. -/
def Graph.update_edge (g : Graph) (startId endId : Nat) (passes : Nat) :
    Except PyExn Bool × Graph :=
  match dictGet g.state_indices_by_id startId, dictGet g.state_indices_by_id endId with
  | some start_index, some end_index =>
    if g.edges.containsPair start_index end_index then
      match g.edges.getItem start_index end_index with
      | Except.error e => (Except.error e, g)
      | Except.ok v =>
        (Except.ok true, { g with
          edges := g.edges.setItem start_index end_index (natChars (charsVal v + passes)) })
    else (Except.ok false, g)
  | some _, none => (Except.ok false, g)
  | none, _ => (Except.ok false, g)

/-- Python `Graph.merge_states(state1, state2)`, with `id1 = id(state1)` and
`id2 = id(state2)`, following the source order: union the template lists into
`state1`, propagate the terminal flag, move the start node, re-intern, rewire
edges through the two index rewrites, then delete `state2`'s entries.  The
returned graph is the object state when the call ends, also when it ends in
an exception (unknown identities raise `KeyError` at the index lookups). -/
def Graph.merge_states (g : Graph) (id1 id2 : Nat) : Except PyExn Unit × Graph :=
  let s1 := g.heapGet id1
  let s2 := g.heapGet id2
  let props := s1.log_templates ++ s2.log_templates.filter (fun t => t ∉ s1.log_templates)
  let g1 := { g with heap := dictSet g.heap id1 ⟨props, s1.is_terminal⟩ }
  let g2 := if s2.is_terminal then { g1 with heap := dictSet g1.heap id1 ⟨props, true⟩ } else g1
  let g3 := if g2.start_node = some id2 then { g2 with start_node := some id1 } else g2
  let g4 := if props ∈ g3.prop_by_hash then g3
    else { g3 with prop_by_hash := g3.prop_by_hash ++ [props] }
  match dictGet g4.state_indices_by_id id1 with
  | none => (Except.error PyExn.keyError, g4)
  | some idx1 =>
    match dictGet g4.state_indices_by_id id2 with
    | none => (Except.error PyExn.keyError, g4)
    | some idx2 =>
      let e1 := g4.edges.change_parent_of_children idx1 idx2
      let e2 := e1.change_children_of_parents idx2 idx1
      let g5 := { g4 with edges := e2 }
      match dictGet g5.states idx2 with
      | none => (Except.error PyExn.keyError, g5)
      | some _ =>
        (Except.ok (), { g5 with
          states := dictDel g5.states idx2
          state_indices_by_id := dictDel g5.state_indices_by_id id2 })

/-! ### Trace matching

`pick` abstracts `random.choice`: it is only ever applied to non-empty lists,
and every theorem assumes it returns a member of its argument. -/

/-- The while loop of Python `Graph.match_trace_rec`, returning the suffix of
visited states after the entry state.  Iterating `None` from
`get_outgoing_states` raises `TypeError`. -/
def Graph.match_trace_rec_go (g : Graph) (pick : List Nat → Nat) :
    Nat → List String → Except PyExn (Option (List Nat))
  | current, [] =>
    match g.get_outgoing_states current with
    | none => Except.error PyExn.typeError
    | some l =>
      Except.ok (if l.any (fun s => (g.heapGet s).is_terminal) then some [] else none)
  | current, line :: rest =>
    match g.search line with
    | none => Except.ok none
    | some tname =>
      match g.get_outgoing_states current with
      | none => Except.error PyExn.typeError
      | some children =>
        let successor := children.filter (fun s => template_matches_state tname (g.heapGet s))
        if successor = [] then Except.ok none
        else
          let nxt := pick successor
          match g.match_trace_rec_go pick nxt rest with
          | Except.ok (some tl) => Except.ok (some (nxt :: tl))
          | r => r

/-- Python `Graph.match_trace_rec`: the visited states starting with the
entry state. -/
def Graph.match_trace_rec (g : Graph) (pick : List Nat → Nat) (current : Nat)
    (trace : List String) : Except PyExn (Option (List Nat)) :=
  match g.match_trace_rec_go pick current trace with
  | Except.ok (some tl) => Except.ok (some (current :: tl))
  | r => r

/-- Python `Graph.match_trace`.  Returns the result together with the final
value of the caller's `trace` list: the source removes the first line in
place (`trace[:] = trace[1:]`) once the first candidate has been chosen on a
trace of two or more lines. -/
def Graph.match_trace (g : Graph) (pick : List Nat → Nat) (trace : List String) :
    Except PyExn (Option (List Nat)) × List String :=
  match trace with
  | [] => (Except.ok (some []), [])
  | l0 :: rest =>
    match g.search l0 with
    | none => (Except.ok none, l0 :: rest)
    | some tname =>
      match (match g.start_node with
             | none => none
             | some sn => g.get_outgoing_states sn) with
      | none => (Except.error PyExn.typeError, l0 :: rest)
      | some outs =>
        let root_children := outs.filter (fun s => template_matches_state tname (g.heapGet s))
        if root_children = [] then (Except.ok none, l0 :: rest)
        else
          let current := pick root_children
          if template_matches_state tname (g.heapGet current) then
            match rest with
            | [] =>
              match g.get_outgoing_states current with
              | none => (Except.error PyExn.typeError, l0 :: rest)
              | some l =>
                (Except.ok (if l.any (fun s => (g.heapGet s).is_terminal)
                  then some [current] else none), l0 :: rest)
            | l1 :: rest2 =>
              match g.search l1 with
              | none => (Except.ok none, l1 :: rest2)
              | some t2 =>
                match g.get_outgoing_states current with
                | none => (Except.error PyExn.typeError, l1 :: rest2)
                | some children =>
                  let successor := children.filter
                    (fun s => template_matches_state t2 (g.heapGet s))
                  if successor = [] then (Except.ok none, l1 :: rest2)
                  else
                    let next_node := pick successor
                    match g.match_trace_rec pick next_node rest2 with
                    | Except.ok (some tail) =>
                      (Except.ok (some (current :: tail)), l1 :: rest2)
                    | Except.ok none => (Except.ok none, l1 :: rest2)
                    | Except.error e => (Except.error e, l1 :: rest2)
          else (Except.ok none, l0 :: rest)

/-- Unique-candidate simulation of the `match_trace_rec` loop: `none` when
some `random.choice` call would face a candidate list whose length is not
exactly one, otherwise the unique common outcome of all runs. -/
def Graph.match_trace_rec_go_u (g : Graph) :
    Nat → List String → Option (Except PyExn (Option (List Nat)))
  | current, [] =>
    match g.get_outgoing_states current with
    | none => some (Except.error PyExn.typeError)
    | some l =>
      some (Except.ok (if l.any (fun s => (g.heapGet s).is_terminal) then some [] else none))
  | current, line :: rest =>
    match g.search line with
    | none => some (Except.ok none)
    | some tname =>
      match g.get_outgoing_states current with
      | none => some (Except.error PyExn.typeError)
      | some children =>
        match children.filter (fun s => template_matches_state tname (g.heapGet s)) with
        | [] => some (Except.ok none)
        | [nxt] =>
          match g.match_trace_rec_go_u nxt rest with
          | none => none
          | some (Except.ok (some tl)) => some (Except.ok (some (nxt :: tl)))
          | some r => some r
        | _ => none

/-- Unique-candidate simulation of `match_trace`: defined when every
candidate list along the way is a singleton. -/
def Graph.match_trace_u (g : Graph) (trace : List String) :
    Option (Except PyExn (Option (List Nat)) × List String) :=
  match trace with
  | [] => some (Except.ok (some []), [])
  | l0 :: rest =>
    match g.search l0 with
    | none => some (Except.ok none, l0 :: rest)
    | some tname =>
      match (match g.start_node with
             | none => none
             | some sn => g.get_outgoing_states sn) with
      | none => some (Except.error PyExn.typeError, l0 :: rest)
      | some outs =>
        match outs.filter (fun s => template_matches_state tname (g.heapGet s)) with
        | [] => some (Except.ok none, l0 :: rest)
        | [current] =>
          if template_matches_state tname (g.heapGet current) then
            match rest with
            | [] =>
              match g.get_outgoing_states current with
              | none => some (Except.error PyExn.typeError, l0 :: rest)
              | some l =>
                some (Except.ok (if l.any (fun s => (g.heapGet s).is_terminal)
                  then some [current] else none), l0 :: rest)
            | l1 :: rest2 =>
              match g.search l1 with
              | none => some (Except.ok none, l1 :: rest2)
              | some t2 =>
                match g.get_outgoing_states current with
                | none => some (Except.error PyExn.typeError, l1 :: rest2)
                | some children =>
                  match children.filter (fun s => template_matches_state t2 (g.heapGet s)) with
                  | [] => some (Except.ok none, l1 :: rest2)
                  | [next_node] =>
                    match g.match_trace_rec_go_u next_node rest2 with
                    | none => none
                    | some (Except.ok (some tl)) =>
                      some (Except.ok (some (current :: next_node :: tl)), l1 :: rest2)
                    | some (Except.ok none) => some (Except.ok none, l1 :: rest2)
                    | some (Except.error e) => some (Except.error e, l1 :: rest2)
                  | _ => none
          else some (Except.ok none, l0 :: rest)
        | _ => none

/-! ### Semantics of the modelled edge rewrites -/

theorem absFind_isSome_iff_mem_pairs {m : SparseMatrix} (hwf : m.WF) (p : Nat × Nat) :
    (m.absFind p).isSome = true ↔ ∃ e ∈ m.list, ((decodeE e).1, (decodeE e).2.1) = p := by
  constructor
  · intro h
    obtain ⟨v, hv⟩ := Option.isSome_iff_exists.mp h
    obtain ⟨p1, p2⟩ := p
    have hm := (absFind_mem hwf).mp hv
    exact ⟨entryStr p1 p2 v, hm, by rw [decodeE_entryStr]⟩
  · rintro ⟨e, hel, hep⟩
    have hwfe := wf_decomp (hwf.1 e hel)
    obtain ⟨p1, p2⟩ := p
    have h1 : (decodeE e).1 = p1 := congrArg Prod.fst hep
    have h2 : (decodeE e).2.1 = p2 := congrArg Prod.snd hep
    rw [h1, h2] at hwfe
    rw [Option.isSome_iff_exists]
    exact ⟨_, (absFind_mem hwf).mpr (hwfe ▸ hel)⟩

theorem lastUpd_isSome_iff (l : List (Nat × Nat × List Char)) (p : Nat × Nat) :
    (lastUpd l p).isSome = true ↔ p ∈ l.map (fun t => (t.1, t.2.1)) := by
  rw [← lastUpd_ne_none_iff l p]
  cases lastUpd l p with
  | none => simp
  | some w => simp

theorem change_parent_isSome {m : SparseMatrix} (hwf : m.WF) (newIdx oldIdx p q : Nat) :
    ((m.change_parent_of_children newIdx oldIdx).absFind (p, q)).isSome = true ↔
    ∃ s d, (m.absFind (s, d)).isSome = true ∧
      (if s = oldIdx then newIdx else s) = p ∧ d = q := by
  unfold SparseMatrix.change_parent_of_children
  rw [fromPairs_absFind, lastUpd_isSome_iff, List.map_map, List.mem_map]
  constructor
  · rintro ⟨e, hel, hep⟩
    refine ⟨(decodeE e).1, (decodeE e).2.1, ?_, ?_, ?_⟩
    · exact (absFind_isSome_iff_mem_pairs hwf _).mpr ⟨e, hel, rfl⟩
    · exact congrArg Prod.fst hep
    · exact congrArg Prod.snd hep
  · rintro ⟨s, d, hsd, hp, hq⟩
    obtain ⟨e, hel, hep⟩ := (absFind_isSome_iff_mem_pairs hwf _).mp hsd
    refine ⟨e, hel, ?_⟩
    have h1 : (decodeE e).1 = s := congrArg Prod.fst hep
    have h2 : (decodeE e).2.1 = d := congrArg Prod.snd hep
    show ((if (decodeE e).1 = oldIdx then newIdx else (decodeE e).1), (decodeE e).2.1) = (p, q)
    rw [h1, h2, hp, hq]

theorem change_children_isSome {m : SparseMatrix} (hwf : m.WF) (oldIdx newIdx p q : Nat) :
    ((m.change_children_of_parents oldIdx newIdx).absFind (p, q)).isSome = true ↔
    ∃ s d, (m.absFind (s, d)).isSome = true ∧
      s = p ∧ (if d = oldIdx then newIdx else d) = q := by
  unfold SparseMatrix.change_children_of_parents
  rw [fromPairs_absFind, lastUpd_isSome_iff, List.map_map, List.mem_map]
  constructor
  · rintro ⟨e, hel, hep⟩
    refine ⟨(decodeE e).1, (decodeE e).2.1, ?_, ?_, ?_⟩
    · exact (absFind_isSome_iff_mem_pairs hwf _).mpr ⟨e, hel, rfl⟩
    · exact congrArg Prod.fst hep
    · exact congrArg Prod.snd hep
  · rintro ⟨s, d, hsd, hp, hq⟩
    obtain ⟨e, hel, hep⟩ := (absFind_isSome_iff_mem_pairs hwf _).mp hsd
    refine ⟨e, hel, ?_⟩
    have h1 : (decodeE e).1 = s := congrArg Prod.fst hep
    have h2 : (decodeE e).2.1 = d := congrArg Prod.snd hep
    show ((decodeE e).1, (if (decodeE e).2.1 = oldIdx then newIdx else (decodeE e).2.1)) = (p, q)
    rw [h1, h2, hp, hq]

theorem change_parent_WF (m : SparseMatrix) (newIdx oldIdx : Nat) :
    (m.change_parent_of_children newIdx oldIdx).WF :=
  fromPairs_WF _

/-- Presence of a pair after the two merge rewrites: exactly the image of the
old pairs under the retired-to-surviving index substitution. -/
theorem rewrite_pair_present {m : SparseMatrix} (hwf : m.WF) (ia ib p q : Nat) :
    (((m.change_parent_of_children ia ib).change_children_of_parents ib ia).absFind
      (p, q)).isSome = true ↔
    ∃ s d, (m.absFind (s, d)).isSome = true ∧
      (if s = ib then ia else s) = p ∧ (if d = ib then ia else d) = q := by
  rw [change_children_isSome (change_parent_WF m ia ib) ib ia p q]
  constructor
  · rintro ⟨s, d, hsd, hp, hq⟩
    obtain ⟨s0, d0, hsd0, hs0, hd0⟩ := (change_parent_isSome hwf ia ib s d).mp hsd
    exact ⟨s0, d0, hsd0, hs0.trans hp, hd0 ▸ hq⟩
  · rintro ⟨s0, d0, hsd0, hs0, hd0⟩
    refine ⟨(if s0 = ib then ia else s0), d0, ?_, hs0, hd0⟩
    exact (change_parent_isSome hwf ia ib _ d0).mpr ⟨s0, d0, hsd0, rfl, rfl⟩

theorem dictSet_length_mem {α : Type} : ∀ (d : List (Nat × α)) (k : Nat) (v w : α),
    dictGet d k = some v → (dictSet d k w).length = d.length := by
  intro d
  induction d with
  | nil => intro k v w hg; exact Option.noConfusion hg
  | cons h t ih =>
    intro k v w hg
    simp only [dictGet] at hg
    simp only [dictSet]
    by_cases hk : h.1 = k
    · rw [if_pos hk]; simp
    · rw [if_neg hk] at hg
      rw [if_neg hk, List.length_cons, List.length_cons, ih k v w hg]

theorem dictSet_length_new {α : Type} : ∀ (d : List (Nat × α)) (k : Nat) (w : α),
    dictGet d k = none → (dictSet d k w).length = d.length + 1 := by
  intro d
  induction d with
  | nil => intro k w _; rfl
  | cons h t ih =>
    intro k w hg
    simp only [dictGet] at hg
    simp only [dictSet]
    by_cases hk : h.1 = k
    · rw [if_pos hk] at hg; exact Option.noConfusion hg
    · rw [if_neg hk] at hg
      rw [if_neg hk, List.length_cons, List.length_cons, ih k w hg]

/-! ### Helpers for stating results, and the merge normal form -/

/-- The exception carried by a result, if any. -/
def resultErr {α : Type} : Except PyExn α → Option PyExn
  | Except.error e => some e
  | Except.ok _ => none

/-- The value carried by a result, if any. -/
def resultOk {α : Type} : Except PyExn α → Option α
  | Except.error _ => none
  | Except.ok v => some v

theorem dictSet_dictSet {α : Type} : ∀ (d : List (Nat × α)) (k : Nat) (v w : α),
    dictSet (dictSet d k v) k w = dictSet d k w := by
  intro d
  induction d with
  | nil => intro k v w; simp [dictSet]
  | cons h t ih =>
    intro k v w
    by_cases hk : h.1 = k
    · simp only [dictSet]
      rw [if_pos hk]
      show (if k = k then (k, w) :: t else (k, v) :: dictSet t k w) = _
      rw [if_pos rfl, if_pos hk]
    · simp only [dictSet]
      rw [if_neg hk]
      show (if h.1 = k then (k, w) :: dictSet t k v else (h.1, h.2) :: dictSet (dictSet t k v) k w)
        = if h.1 = k then (k, w) :: t else (h.1, h.2) :: dictSet t k w
      rw [if_neg hk, if_neg hk, ih k v w]

/-- The merged template list built by `merge_states`: `state1`'s templates
followed by the templates of `state2` missing from them. -/
def mergedProps (g : Graph) (id1 id2 : Nat) : List String :=
  (g.heapGet id1).log_templates ++
    (g.heapGet id2).log_templates.filter (fun t => t ∉ (g.heapGet id1).log_templates)

/-- The merged terminal flag. -/
def mergedTerm (g : Graph) (id1 id2 : Nat) : Bool :=
  (g.heapGet id1).is_terminal || (g.heapGet id2).is_terminal

/-- Normal form of a successful `merge_states` call: with both identities
indexed and the absorbed state live, the call succeeds and the result is the
source-order composition of all its mutations. -/
theorem merge_states_ok_shape (g : Graph) (a b ia ib : Nat)
    (hia : dictGet g.state_indices_by_id a = some ia)
    (hib : dictGet g.state_indices_by_id b = some ib)
    (hsb : dictGet g.states ib = some b) :
    g.merge_states a b = (Except.ok (), { g with
      heap := dictSet g.heap a ⟨mergedProps g a b, mergedTerm g a b⟩
      start_node := if g.start_node = some b then some a else g.start_node
      prop_by_hash := if mergedProps g a b ∈ g.prop_by_hash then g.prop_by_hash
        else g.prop_by_hash ++ [mergedProps g a b]
      edges := (g.edges.change_parent_of_children ia ib).change_children_of_parents ib ia
      states := dictDel g.states ib
      state_indices_by_id := dictDel g.state_indices_by_id b }) := by
  unfold Graph.merge_states
  cases hterm : (g.heapGet b).is_terminal <;>
    by_cases h2 : g.start_node = some b <;>
      by_cases h3 : (g.heapGet a).log_templates ++
          List.filter (fun t => !decide (t ∈ (g.heapGet a).log_templates))
            (g.heapGet b).log_templates
          ∈ g.prop_by_hash <;>
    simp [hterm, h2, h3, hia, hib, hsb, dictSet_dictSet, mergedProps, mergedTerm]

/-- On any exception, `merge_states` has not touched the `states` map or the
identity index (the mutations before the failing lookups touch only the kept
state's fields, the start node and the interning table; the one later failure
point, the `del` of a dangling index, happens after the edge rewrites but
still before either dict shrinks). -/
theorem merge_states_error_shape (g : Graph) (a b : Nat) (e : PyExn) (g2 : Graph)
    (h : g.merge_states a b = (Except.error e, g2)) :
    g2.states = g.states ∧ g2.state_indices_by_id = g.state_indices_by_id := by
  unfold Graph.merge_states at h
  repeat any_goals first | split at h | simp only [] at h
  all_goals injection h with h1 h2
  any_goals exact Except.noConfusion h1
  all_goals rw [← h2]
  all_goals exact ⟨rfl, rfl⟩

/-- `add_state` leaves the graph unchanged when it raises. -/
theorem add_state_error_shape (g : Graph) (sid : Nat) (e : PyExn) (g2 : Graph)
    (h : g.add_state sid = (Except.error e, g2)) : g2 = g := by
  unfold Graph.add_state at h
  repeat any_goals first | split at h | simp only [] at h
  all_goals injection h with h1 h2
  any_goals exact Except.noConfusion h1
  all_goals exact h2.symm

/-- `add_edge` leaves the graph unchanged when it reports failure. -/
theorem add_edge_error_shape (g : Graph) (a b p : Nat) (g2 : Graph)
    (h : g.add_edge a b p = (false, g2)) : g2 = g := by
  unfold Graph.add_edge at h
  repeat any_goals first | split at h | simp only [] at h
  all_goals injection h with h1 h2
  any_goals exact Bool.noConfusion h1
  all_goals exact h2.symm

/-- The head of a non-empty list is a member (used for concrete choosers). -/
def pickHead (l : List Nat) : Nat := l.headD 0

theorem pickHead_mem : ∀ l : List Nat, l ≠ [] → pickHead l ∈ l := by
  intro l hl
  cases l with
  | nil => exact absurd rfl hl
  | cons h t => exact List.mem_cons_self h t

/-- Whenever the unique-candidate simulation of the `match_trace_rec` loop is
defined, every member-returning chooser follows the same run. -/
theorem match_trace_rec_go_u_spec (g : Graph) (pick : List Nat → Nat)
    (hpick : ∀ l : List Nat, l ≠ [] → pick l ∈ l) :
    ∀ (trace : List String) (current : Nat) (r : Except PyExn (Option (List Nat))),
    g.match_trace_rec_go_u current trace = some r →
    g.match_trace_rec_go pick current trace = r := by
  intro trace
  induction trace with
  | nil =>
    intro current r h
    unfold Graph.match_trace_rec_go_u at h
    unfold Graph.match_trace_rec_go
    cases ho : g.get_outgoing_states current with
    | none => rw [ho] at h; try simp only [] at h; try simp only []; exact Option.some.inj h
    | some l => rw [ho] at h; try simp only [] at h; try simp only []; exact Option.some.inj h
  | cons line rest ih =>
    intro current r h
    unfold Graph.match_trace_rec_go_u at h
    unfold Graph.match_trace_rec_go
    try simp only [] at h
    try simp only []
    cases hs : g.search line with
    | none => rw [hs] at h; try simp only [] at h; try simp only []; exact Option.some.inj h
    | some tname =>
      rw [hs] at h
      try simp only [] at h
      cases ho : g.get_outgoing_states current with
      | none => rw [ho] at h; try simp only [] at h; try simp only []; exact Option.some.inj h
      | some children =>
        rw [ho] at h
        try simp only [] at h ⊢
        cases hf : children.filter (fun s => template_matches_state tname (g.heapGet s)) with
        | nil =>
          rw [hf] at h
          try simp only [] at h
          rw [if_pos rfl]
          try simp only [] at h
          try simp only []
          exact Option.some.inj h
        | cons c cs =>
          rw [hf] at h
          try simp only [] at h
          cases cs with
          | nil =>
            have hcp : pick [c] = c := by
              have hm := hpick [c] (by simp)
              simpa using hm
            rw [if_neg (show ¬(c :: ([] : List Nat) = []) by simp)]
            try simp only []
            rw [hcp]
            try simp only [] at h
            cases hu : g.match_trace_rec_go_u c rest with
            | none => rw [hu] at h; try simp only [] at h; exact Option.noConfusion h
            | some r2 =>
              rw [hu] at h
              rw [ih c r2 hu]
              cases r2 with
              | error e => exact Eq.trans (by rfl) (Option.some.inj h)
              | ok o =>
                cases o with
                | none => exact Eq.trans (by rfl) (Option.some.inj h)
                | some tl => exact Eq.trans (by rfl) (Option.some.inj h)
          | cons c2 cs2 =>
            try simp only [] at h
            try simp only [] at h
            exact Option.noConfusion h

/-- Whenever the unique-candidate simulation of `match_trace` is defined,
every member-returning chooser produces its result and final trace. -/
theorem match_trace_u_spec (g : Graph) (pick : List Nat → Nat)
    (hpick : ∀ l : List Nat, l ≠ [] → pick l ∈ l) (trace : List String)
    (r : Except PyExn (Option (List Nat)) × List String)
    (h : g.match_trace_u trace = some r) :
    g.match_trace pick trace = r := by
  unfold Graph.match_trace_u at h
  unfold Graph.match_trace
  cases trace with
  | nil => exact Option.some.inj h
  | cons l0 rest =>
    try simp only [] at h
    try simp only []
    cases hs : g.search l0 with
    | none => rw [hs] at h; try simp only [] at h; try simp only []; exact Option.some.inj h
    | some tname =>
      rw [hs] at h
      try simp only [] at h ⊢
      cases hsn : (match g.start_node with
                   | none => none
                   | some sn => g.get_outgoing_states sn) with
      | none => rw [hsn] at h; try simp only [] at h; try simp only []; exact Option.some.inj h
      | some outs =>
        rw [hsn] at h
        try simp only [] at h ⊢
        cases hf : outs.filter (fun s => template_matches_state tname (g.heapGet s)) with
        | nil =>
          rw [hf] at h
          try simp only [] at h
          rw [if_pos rfl]
          try simp only [] at h
          try simp only []
          exact Option.some.inj h
        | cons c cs =>
          rw [hf] at h
          try simp only [] at h
          cases cs with
          | cons c2 cs2 =>
            try simp only [] at h
            try simp only [] at h
            exact Option.noConfusion h
          | nil =>
            have hcp : pick [c] = c := by
              have hm := hpick [c] (by simp)
              simpa using hm
            rw [if_neg (show ¬(c :: ([] : List Nat) = []) by simp)]
            try simp only []
            rw [hcp]
            try simp only [] at h
            cases htm : template_matches_state tname (g.heapGet c) with
            | false =>
              rw [htm] at h
              simp only [Bool.false_eq_true, if_false] at h ⊢
              try simp only [] at h
              try simp only []
              exact Option.some.inj h
            | true =>
              rw [htm] at h
              try simp only [eq_self_iff_true, if_true, ite_true] at h ⊢
              try rw [if_pos rfl]
              try rw [if_pos rfl] at h
              cases rest with
              | nil =>
                try simp only [] at h ⊢
                cases ho : g.get_outgoing_states c with
                | none => rw [ho] at h; try simp only [] at h; try simp only []; exact Option.some.inj h
                | some l => rw [ho] at h; try simp only [] at h; try simp only []; exact Option.some.inj h
              | cons l1 rest2 =>
                try simp only [] at h ⊢
                cases hs1 : g.search l1 with
                | none => rw [hs1] at h; try simp only [] at h; try simp only []; exact Option.some.inj h
                | some t2 =>
                  rw [hs1] at h
                  try simp only [] at h ⊢
                  cases ho : g.get_outgoing_states c with
                  | none => rw [ho] at h; try simp only [] at h; try simp only []; exact Option.some.inj h
                  | some children =>
                    rw [ho] at h
                    try simp only [] at h ⊢
                    cases hf2 : children.filter (fun s => template_matches_state t2 (g.heapGet s)) with
                    | nil =>
                      rw [hf2] at h
                      try simp only [] at h
                      rw [if_pos rfl]
                      try simp only [] at h
                      try simp only []
                      exact Option.some.inj h
                    | cons n ns =>
                      rw [hf2] at h
                      try simp only [] at h
                      cases ns with
                      | cons n2 ns2 =>
                        try simp only [] at h
                        try simp only [] at h
                        exact Option.noConfusion h
                      | nil =>
                        have hnp : pick [n] = n := by
                          have hm := hpick [n] (by simp)
                          simpa using hm
                        rw [if_neg (show ¬(n :: ([] : List Nat) = []) by simp)]
                        try simp only []
                        rw [hnp]
                        try simp only [] at h
                        cases hu : g.match_trace_rec_go_u n rest2 with
                        | none => rw [hu] at h; try simp only [] at h; exact Option.noConfusion h
                        | some r2 =>
                          rw [hu] at h
                          have hrec := match_trace_rec_go_u_spec g pick hpick rest2 n r2 hu
                          unfold Graph.match_trace_rec
                          rw [hrec]
                          cases r2 with
                          | error e => exact Option.some.inj h
                          | ok o =>
                            cases o with
                            | none => exact Option.some.inj h
                            | some tl => exact Option.some.inj h

/-! ### Concrete instances used by the claim checks -/

/-- A small concrete template resolver. -/
def exSearch : String → Option String :=
  fun l => if l = "a" then some "A" else if l = "b" then some "B" else none

/-- Three states (identities 10, 11, 12) registered at indices 0, 1, 2, as
after three `add_state` calls; identity 13 is a live but unregistered state
object. -/
def gABC : Graph :=
  { search := exSearch
    edges := SparseMatrix.empty
    states := [(0, 10), (1, 11), (2, 12)]
    state_indices_by_id := [(10, 0), (11, 1), (12, 2)]
    prop_by_hash := [["A"], ["B"], ["C"]]
    start_node := some 10
    heap := [(10, ⟨["A"], false⟩), (11, ⟨["B"], true⟩), (12, ⟨["C"], false⟩),
             (13, ⟨["D"], false⟩)] }

/-- One registered state (identity 10) plus a live state object (identity 99)
that was never added to the graph. -/
def c3g : Graph :=
  { search := exSearch
    edges := SparseMatrix.empty
    states := [(0, 10)]
    state_indices_by_id := [(10, 0)]
    prop_by_hash := [["A"]]
    start_node := some 10
    heap := [(10, ⟨["A"], false⟩), (99, ⟨["X"], true⟩)] }

/-- One terminal state with a self-loop edge. -/
def c4g : Graph :=
  { search := exSearch
    edges := SparseMatrix.empty.setItem 0 0 (natChars 1)
    states := [(0, 10)]
    state_indices_by_id := [(10, 0)]
    prop_by_hash := [["A"]]
    start_node := some 10
    heap := [(10, ⟨["A"], true⟩)] }

/-- Thirteen states at indices 0..12 (identities 100..112) with one edge from
index 0 to index 12, exercising double-digit indices. -/
def c6g : Graph :=
  { search := exSearch
    edges := SparseMatrix.empty.setItem 0 12 (natChars 1)
    states := (List.range 13).map (fun i => (i, 100 + i))
    state_indices_by_id := (List.range 13).map (fun i => (100 + i, i))
    prop_by_hash := []
    start_node := some 100
    heap := (List.range 13).map (fun i => (100 + i, ⟨[toString i], false⟩)) }

/-- Two states joined by one edge with a single pass. -/
def c7g : Graph :=
  { search := exSearch
    edges := SparseMatrix.empty.setItem 0 1 (natChars 1)
    states := [(0, 10), (1, 11)]
    state_indices_by_id := [(10, 0), (11, 1)]
    prop_by_hash := [["A"], ["B"]]
    start_node := some 10
    heap := [(10, ⟨["A"], false⟩), (11, ⟨["B"], true⟩)] }

/-- A four-state chain `root → A → B → C(terminal)` whose resolver maps line
`"a"` to template `A` and `"b"` to template `B`. -/
def mtG : Graph :=
  { search := exSearch
    edges := ((SparseMatrix.empty.setItem 0 1 (natChars 1)).setItem 1 2
      (natChars 1)).setItem 2 3 (natChars 1)
    states := [(0, 10), (1, 11), (2, 12), (3, 13)]
    state_indices_by_id := [(10, 0), (11, 1), (12, 2), (13, 3)]
    prop_by_hash := [[""], ["A"], ["B"], ["C"]]
    start_node := some 10
    heap := [(10, ⟨[""], false⟩), (11, ⟨["A"], false⟩), (12, ⟨["B"], false⟩),
             (13, ⟨["C"], true⟩)] }

/-- Three states in a chain with two edges, for the merge witness. -/
def gE : Graph :=
  { search := exSearch
    edges := ((SparseMatrix.empty.setItem 0 1 (natChars 1)).setItem 1 1
      (natChars 1)).setItem 1 2 (natChars 1)
    states := [(0, 10), (1, 11), (2, 12)]
    state_indices_by_id := [(10, 0), (11, 1), (12, 2)]
    prop_by_hash := [["A"], ["B"], ["C"]]
    start_node := some 10
    heap := [(10, ⟨["A"], false⟩), (11, ⟨["B"], true⟩), (12, ⟨["C"], false⟩)] }

/-! ### Claim theorems -/

/-- C2 counterexample: dense indices are reused.  On `gABC` (states at
indices 0, 1, 2), merging away the state at index 1 leaves `len(states) = 2`
while index 2 is still live; the next `add_state` call then assigns index
`len(states) = 2` and overwrites the live entry for identity 12 with
identity 13, while the identity index still maps 12 to slot 2. -/
theorem add_state_reuses_retired_index_cex :
    dictGet (gABC.merge_states 10 11).2.states 2 = some 12 ∧
    resultErr ((gABC.merge_states 10 11).2.add_state 13).1 = none ∧
    dictGet ((gABC.merge_states 10 11).2.add_state 13).2.states 2 = some 13 ∧
    dictGet ((gABC.merge_states 10 11).2.add_state 13).2.state_indices_by_id 12 = some 2 ∧
    ((gABC.merge_states 10 11).2.add_state 13).2.states.length
      = (gABC.merge_states 10 11).2.states.length := by
  decide

/-- C2 amended: `add_state` always assigns the dense index `len(states)`;
that index is fresh exactly when it is not currently a key of the states map,
and otherwise the existing entry at that index is overwritten (the map does
not grow). -/
theorem add_state_assigns_len_index (g : Graph) (sid : Nat)
    (habs : g.containsState sid = false) :
    dictGet (g.add_state sid).2.states g.states.length = some sid ∧
    ((∃ v, dictGet g.states g.states.length = some v) →
      (g.add_state sid).2.states.length = g.states.length) ∧
    (dictGet g.states g.states.length = none →
      (g.add_state sid).2.states.length = g.states.length + 1) := by
  unfold Graph.add_state
  rw [habs]
  simp only [Bool.false_eq_true, if_false]
  by_cases hmem : (g.heapGet sid).log_templates ∈ g.prop_by_hash
  · rw [if_pos hmem]
    refine ⟨dictGet_dictSet_eq g.states g.states.length sid, ?_, ?_⟩
    · rintro ⟨v, hv⟩
      exact dictSet_length_mem g.states g.states.length v sid hv
    · intro hv
      exact dictSet_length_new g.states g.states.length sid hv
  · rw [if_neg hmem]
    refine ⟨dictGet_dictSet_eq g.states g.states.length sid, ?_, ?_⟩
    · rintro ⟨v, hv⟩
      exact dictSet_length_mem g.states g.states.length v sid hv
    · intro hv
      exact dictSet_length_new g.states g.states.length sid hv

/-- Witness for the amended C2 statement on a concrete graph. -/
theorem add_state_assigns_len_index_witness :
    dictGet (gABC.add_state 13).2.states 3 = some 13 :=
  (add_state_assigns_len_index gABC 13 (by decide)).1

/-- C3 counterexample: `merge_states` called with a state object (identity
99) that is live but not in the graph raises `KeyError` only after having
already replaced the kept state's template list and terminal flag and grown
the interning table: the abort leaves a partial mutation behind. -/
theorem merge_states_partial_mutation_cex :
    resultErr (c3g.merge_states 10 99).1 = some PyExn.keyError ∧
    c3g.heapGet 10 = ⟨["A"], false⟩ ∧
    (c3g.merge_states 10 99).2.heapGet 10 = ⟨["A", "X"], true⟩ ∧
    c3g.prop_by_hash = [["A"]] ∧
    (c3g.merge_states 10 99).2.prop_by_hash = [["A"], ["A", "X"]] := by
  decide

/-- C3 amended: `add_state` and `add_edge` leave the graph unchanged when
they fail; a `merge_states` call that aborts with an exception
preserves the states map and the identity index, but may already have
mutated the kept state's fields, the start node and the interning table. -/
theorem mutation_error_atomicity :
    (∀ (g : Graph) (sid : Nat) (e : PyExn) (g2 : Graph),
      g.add_state sid = (Except.error e, g2) → g2 = g) ∧
    (∀ (g : Graph) (a b p : Nat) (g2 : Graph),
      g.add_edge a b p = (false, g2) → g2 = g) ∧
    (∀ (g : Graph) (a b : Nat) (e : PyExn) (g2 : Graph),
      g.merge_states a b = (Except.error e, g2) →
        g2.states = g.states ∧ g2.state_indices_by_id = g.state_indices_by_id) :=
  ⟨add_state_error_shape, add_edge_error_shape, merge_states_error_shape⟩

/-- Witness for the amended C3 statement: the failing merge on `c3g`
preserves both dictionaries. -/
theorem mutation_error_atomicity_witness :
    (c3g.merge_states 10 99).2.states = c3g.states ∧
    (c3g.merge_states 10 99).2.state_indices_by_id = c3g.state_indices_by_id :=
  mutation_error_atomicity.2.2 c3g 10 99 PyExn.keyError (c3g.merge_states 10 99).2 rfl

/-- C4 counterexample: merging a state with itself is not rejected — there is
no `InvalidMerge` guard — and it does not leave the graph unchanged: the call
succeeds, deletes the state from both maps, and leaves its self-loop edge
dangling. -/
theorem merge_self_not_rejected_cex :
    resultErr (c4g.merge_states 10 10).1 = none ∧
    (c4g.merge_states 10 10).2.states = [] ∧
    dictGet (c4g.merge_states 10 10).2.state_indices_by_id 10 = none ∧
    (c4g.merge_states 10 10).2.edges.list = [entryStr 0 0 (natChars 1)] := by
  decide

/-- C4 amended: for every graph and registered state, `merge_states(s, s)`
runs to completion without any error and silently removes `s`: the state
becomes unretrievable by identity and the graph shrinks by one. -/
theorem merge_states_self_deletes (g : Graph) (sid idx : Nat)
    (hidx : dictGet g.state_indices_by_id sid = some idx)
    (hst : dictGet g.states idx = some sid)
    (hnd : (g.state_indices_by_id.map Prod.fst).Nodup) :
    resultErr (g.merge_states sid sid).1 = none ∧
    dictGet (g.merge_states sid sid).2.state_indices_by_id sid = none ∧
    (g.merge_states sid sid).2.states.length = g.states.length - 1 := by
  rw [merge_states_ok_shape g sid sid idx idx hidx hidx hst]
  refine ⟨rfl, ?_, ?_⟩
  · exact dictGet_dictDel_eq g.state_indices_by_id sid hnd
  · exact dictDel_length g.states idx sid hst

/-- Witness for the amended C4 statement. -/
theorem merge_states_self_deletes_witness :
    resultErr (c4g.merge_states 10 10).1 = none ∧
    dictGet (c4g.merge_states 10 10).2.state_indices_by_id 10 = none ∧
    (c4g.merge_states 10 10).2.states.length = c4g.states.length - 1 :=
  merge_states_self_deletes c4g 10 0 (by decide) (by decide) (by decide)

/-- C5 counterexample: with the single stored edge `(1, 23)`, the membership
test for the never-written pair `(1, 2)` is true — `__contains__` searches
for `"1.2"` without a trailing separator, which prefix-matches `"1.23.1"` —
while `__getitem__` does not succeed on it (it raises `TypeError`
unconditionally), so `contains` does not agree with `get` succeeding. -/
theorem contains_get_disagree_cex :
    (SparseMatrix.empty.setItem 1 23 (natChars 1)).containsPair 1 2 = true ∧
    (SparseMatrix.empty.setItem 1 23 (natChars 1)).absFind (1, 2) = none ∧
    resultErr ((SparseMatrix.empty.setItem 1 23 (natChars 1)).getItem 1 2)
      = some PyExn.typeError := by
  decide

/-- C5 amended: for every sequence of `set` writes replayed from the empty
matrix, `find_children(source)` (with `None` read as the empty list) returns
exactly the destinations ever set for that source — in particular no entry of
a source sharing a decimal prefix, since the scan key carries the separator —
each with the last payload written for the pair; but `get` never succeeds
(`find_edge` passes one argument to the two-parameter `get_values` and always
raises `TypeError`), so `contains` cannot agree with it. -/
theorem children_of_exact (ops : List (Nat × Nat × List Char)) (s d : Nat) (v : List Char) :
    ((d, v) ∈ ((fromPairs ops).find_children s).getD [] ↔ lastUpd ops (s, d) = some v) ∧
    resultErr ((fromPairs ops).getItem s d) = some PyExn.typeError := by
  constructor
  · have hwf := fromPairs_WF ops
    rw [show (fromPairs ops).find_children s = find_children_in (fromPairs ops).list s from rfl,
      find_children_in_exact hwf.1 hwf.2.1 hwf.2.2 s d v,
      show findPairVal (fromPairs ops).list (s, d) = (fromPairs ops).absFind (s, d) from rfl,
      fromPairs_absFind]
  · rfl

/-- C6: `add_edge` refuses a pair that is genuinely absent from the index.
On `c6g` both endpoints are registered and no edge `(0, 1)` exists — only
`(0, 12)` does — yet `add_edge` returns `False` and stores nothing, because
`__contains__` searches for the key `"0.1"` without a trailing separator and
prefix-matches the stored entry `"0.12.1"`. -/
theorem add_edge_prefix_false_negative :
    c6g.containsState 100 = true ∧ c6g.containsState 101 = true ∧
    c6g.edges.absFind (0, 1) = none ∧
    (c6g.add_edge 100 101 1).1 = false ∧
    (c6g.add_edge 100 101 1).2.edges = c6g.edges ∧
    (c6g.add_edge 100 103 1).1 = true := by
  decide

/-- C7: `update_edge` on an existing edge never increments it: the read-back
`self.edges[start_index, end_index]` goes through `find_edge`, whose call
`self.get_values(self.find_index(coordinates))` omits the `index` argument of
the two-parameter static method and raises `TypeError`; the failure branches
still return `False` without raising.  No call can ever return `True`. -/
theorem update_edge_always_raises :
    c7g.edges.absFind (0, 1) = some (natChars 1) ∧
    resultErr (c7g.update_edge 10 11 1).1 = some PyExn.typeError ∧
    (c7g.update_edge 10 11 1).2.edges = c7g.edges ∧
    resultOk (c7g.update_edge 10 99 1).1 = some false ∧
    (∀ (g : Graph) (a b p : Nat), resultOk (g.update_edge a b p).1 ≠ some true) := by
  refine ⟨by decide, by decide, by decide, by decide, ?_⟩
  intro g a b p hc
  unfold Graph.update_edge at hc
  simp only [SparseMatrix.getItem, SparseMatrix.find_edge] at hc
  repeat any_goals first | split at hc | simp only [] at hc
  all_goals simp [resultOk] at hc

/-- C8 counterexample: `get_outgoing_states_not_self` returns the plain empty
list both for a state that is not in the graph (identity 99) and for a
registered state with no outgoing edges (identity 10), so its caller cannot
tell the two cases apart — there is no distinguished unknown result. -/
theorem not_self_absent_empty_cex :
    c3g.containsState 99 = false ∧ c3g.get_outgoing_states_not_self 99 = [] ∧
    c3g.containsState 10 = true ∧ c3g.get_outgoing_states_not_self 10 = [] := by
  decide

/-- C8 amended: `get_outgoing_states` and `get_incoming_states` do
distinguish the two cases — `None` for an unknown state, a (possibly empty)
list for a known one — but `get_outgoing_states_not_self` collapses the
unknown case to the empty list through its truthiness test, so only the
first two are distinguishable. -/
theorem query_absent_distinction (g : Graph) (sid : Nat) :
    (g.containsState sid = false →
      g.get_outgoing_states sid = none ∧ g.get_incoming_states sid = none ∧
      g.get_outgoing_states_not_self sid = []) ∧
    (g.containsState sid = true →
      (∃ l, g.get_outgoing_states sid = some l) ∧
      (∃ l, g.get_incoming_states sid = some l)) := by
  constructor
  · intro habs
    have h1 : g.get_outgoing_states sid = none := by
      unfold Graph.get_outgoing_states
      rw [habs]
      simp
    refine ⟨h1, ?_, ?_⟩
    · unfold Graph.get_incoming_states
      rw [habs]
      simp
    · unfold Graph.get_outgoing_states_not_self
      rw [h1]
  · intro hpres
    constructor
    · unfold Graph.get_outgoing_states
      rw [hpres]
      simp only [if_true]
      cases g.edges.find_children ((dictGet g.state_indices_by_id sid).getD 0) with
      | none => exact ⟨[], rfl⟩
      | some results => exact ⟨_, rfl⟩
    · unfold Graph.get_incoming_states
      rw [hpres]
      simp only [if_true]
      exact ⟨_, rfl⟩

/-- Witness for the amended C8 statement. -/
theorem query_absent_distinction_witness :
    c3g.get_outgoing_states 99 = none ∧ c3g.get_incoming_states 99 = none ∧
    c3g.get_outgoing_states_not_self 99 = [] :=
  (query_absent_distinction c3g 99).1 (by decide)

/-- C1: postconditions of a successful merge.  For a graph whose identity
index holds distinct states `a` (at slot `ia`) and `b` (at slot `ib`), with
the absorbed state live in the states map and a well-formed adjacency index:
after `merge_states a b`, (1) `b` is no longer retrievable by identity,
(2) every edge pair formerly incident to slot `ib` is present with `ib`
replaced by `ia`, and no edge references `ib` any more, (3) the kept state's
template list contains the union of both old template lists, (4) the kept
state is terminal if either input was, and (5) the graph shrinks by exactly
one state. -/
theorem merge_states_spec (g : Graph) (a b ia ib : Nat)
    (hia : dictGet g.state_indices_by_id a = some ia)
    (hib : dictGet g.state_indices_by_id b = some ib)
    (hiab : ia ≠ ib)
    (hsb : dictGet g.states ib = some b)
    (hnd : (g.state_indices_by_id.map Prod.fst).Nodup)
    (hwfe : g.edges.WF) :
    resultErr (g.merge_states a b).1 = none ∧
    dictGet (g.merge_states a b).2.state_indices_by_id b = none ∧
    (∀ t, (t ∈ (g.heapGet a).log_templates ∨ t ∈ (g.heapGet b).log_templates) →
      t ∈ ((g.merge_states a b).2.heapGet a).log_templates) ∧
    (((g.heapGet a).is_terminal = true ∨ (g.heapGet b).is_terminal = true) →
      ((g.merge_states a b).2.heapGet a).is_terminal = true) ∧
    (∀ p q, (g.edges.absFind (p, q)).isSome = true → (p = ib ∨ q = ib) →
      (((g.merge_states a b).2.edges.absFind
        (if p = ib then ia else p, if q = ib then ia else q)).isSome = true)) ∧
    (∀ p q, ((g.merge_states a b).2.edges.absFind (p, q)).isSome = true →
      p ≠ ib ∧ q ≠ ib) ∧
    (g.merge_states a b).2.states.length = g.states.length - 1 := by
  rw [merge_states_ok_shape g a b ia ib hia hib hsb]
  have hheap : Graph.heapGet { g with
      heap := dictSet g.heap a ⟨mergedProps g a b, mergedTerm g a b⟩
      start_node := if g.start_node = some b then some a else g.start_node
      prop_by_hash := if mergedProps g a b ∈ g.prop_by_hash then g.prop_by_hash
        else g.prop_by_hash ++ [mergedProps g a b]
      edges := (g.edges.change_parent_of_children ia ib).change_children_of_parents ib ia
      states := dictDel g.states ib
      state_indices_by_id := dictDel g.state_indices_by_id b } a
      = ⟨mergedProps g a b, mergedTerm g a b⟩ := by
    unfold Graph.heapGet
    simp only
    rw [dictGet_dictSet_eq]
    rfl
  refine ⟨rfl, ?_, ?_, ?_, ?_, ?_, ?_⟩
  · exact dictGet_dictDel_eq g.state_indices_by_id b hnd
  · intro t ht
    rw [hheap]
    show t ∈ mergedProps g a b
    unfold mergedProps
    rw [List.mem_append]
    rcases ht with hta | htb
    · exact Or.inl hta
    · by_cases hta : t ∈ (g.heapGet a).log_templates
      · exact Or.inl hta
      · refine Or.inr (List.mem_filter.mpr ⟨htb, ?_⟩)
        simpa using hta
  · intro ht
    rw [hheap]
    show mergedTerm g a b = true
    unfold mergedTerm
    rcases ht with h | h
    · rw [h, Bool.true_or]
    · rw [h, Bool.or_true]
  · intro p q hpq _
    show (((g.edges.change_parent_of_children ia ib).change_children_of_parents ib ia).absFind
      (if p = ib then ia else p, if q = ib then ia else q)).isSome = true
    exact (rewrite_pair_present hwfe ia ib _ _).mpr ⟨p, q, hpq, rfl, rfl⟩
  · intro p q hpq
    have h2 : (((g.edges.change_parent_of_children ia ib).change_children_of_parents
        ib ia).absFind (p, q)).isSome = true := hpq
    obtain ⟨s, d, _, hs, hd⟩ := (rewrite_pair_present hwfe ia ib p q).mp h2
    constructor
    · rw [← hs]
      by_cases hsd : s = ib
      · rw [if_pos hsd]; exact hiab
      · rw [if_neg hsd]; exact hsd
    · rw [← hd]
      by_cases hdd : d = ib
      · rw [if_pos hdd]; exact hiab
      · rw [if_neg hdd]; exact hdd
  · exact dictDel_length g.states ib b hsb

/-- Witness for C1 on the concrete chain `gE`, merging state 11 into 10. -/
theorem merge_states_spec_witness :
    resultErr (gE.merge_states 10 11).1 = none ∧
    dictGet (gE.merge_states 10 11).2.state_indices_by_id 11 = none :=
  ⟨(merge_states_spec gE 10 11 0 1 (by decide) (by decide) (by decide) (by decide)
      (by decide) ⟨by decide, by decide, by decide⟩).1,
   (merge_states_spec gE 10 11 0 1 (by decide) (by decide) (by decide) (by decide)
      (by decide) ⟨by decide, by decide, by decide⟩).2.1⟩

/-- C9: under no ambiguity the trace match is deterministic.  When the
unique-candidate simulation `match_trace_u` is defined — i.e. every
`random.choice` call along the run faces exactly one candidate — any two
runs of `match_trace` with member-returning choosers return its result: the
unique path of visited states (chosen first state included, root excluded)
together with the mutated trace. -/
theorem match_trace_deterministic (g : Graph) (pick1 pick2 : List Nat → Nat)
    (hpick1 : ∀ l : List Nat, l ≠ [] → pick1 l ∈ l)
    (hpick2 : ∀ l : List Nat, l ≠ [] → pick2 l ∈ l)
    (trace : List String) (r : Except PyExn (Option (List Nat)) × List String)
    (hu : g.match_trace_u trace = some r) :
    g.match_trace pick1 trace = r ∧ g.match_trace pick2 trace = g.match_trace pick1 trace := by
  have h1 := match_trace_u_spec g pick1 hpick1 trace r hu
  have h2 := match_trace_u_spec g pick2 hpick2 trace r hu
  exact ⟨h1, h2.trans h1.symm⟩

/-- Witness for C9: on the concrete chain `mtG` the two-line trace has a
unique candidate at every step and any member-returning chooser yields the
path `[11, 12]`. -/
theorem match_trace_deterministic_witness :
    mtG.match_trace pickHead ["a", "b"] = (Except.ok (some [11, 12]), ["b"]) ∧
    mtG.match_trace pickHead ["a", "b"] = mtG.match_trace pickHead ["a", "b"] :=
  match_trace_deterministic mtG pickHead pickHead pickHead_mem pickHead_mem
    ["a", "b"] (Except.ok (some [11, 12]), ["b"]) rfl

/-- C10: `match_trace` removes the first line of the caller's list in place
exactly when the trace has at least two lines and the first line resolves to
a template matching some child of the start node (the chosen candidate then
necessarily matches); traces of length zero or one, unresolvable first
lines, and first lines matching no child leave the list unchanged, whatever
the eventual outcome of the match. -/
theorem match_trace_mutates_trace (g : Graph) (pick : List Nat → Nat)
    (hpick : ∀ l : List Nat, l ≠ [] → pick l ∈ l) :
    ((g.match_trace pick []).2 = []) ∧
    (∀ l0, (g.match_trace pick [l0]).2 = [l0]) ∧
    (∀ l0 rest, g.search l0 = none → (g.match_trace pick (l0 :: rest)).2 = l0 :: rest) ∧
    (∀ l0 rest tname outs, g.search l0 = some tname →
      (match g.start_node with
       | none => none
       | some sn => g.get_outgoing_states sn) = some outs →
      outs.filter (fun s => template_matches_state tname (g.heapGet s)) = [] →
      (g.match_trace pick (l0 :: rest)).2 = l0 :: rest) ∧
    (∀ l0 l1 rest2 tname outs, g.search l0 = some tname →
      (match g.start_node with
       | none => none
       | some sn => g.get_outgoing_states sn) = some outs →
      outs.filter (fun s => template_matches_state tname (g.heapGet s)) ≠ [] →
      (g.match_trace pick (l0 :: l1 :: rest2)).2 = l1 :: rest2) := by
  refine ⟨rfl, ?_, ?_, ?_, ?_⟩
  · intro l0
    unfold Graph.match_trace
    try simp only []
    repeat any_goals first | split | rfl
  · intro l0 rest hs
    unfold Graph.match_trace
    try simp only []
    rw [hs]
  · intro l0 rest tname outs hs hsn hf
    unfold Graph.match_trace
    try simp only []
    rw [hs, hsn]
    try simp only []
    rw [hf, if_pos rfl]
  · intro l0 l1 rest2 tname outs hs hsn hf
    unfold Graph.match_trace
    try simp only []
    rw [hs, hsn]
    try simp only []
    rw [if_neg hf]
    have hmem := hpick _ hf
    have hmatch : template_matches_state tname
        (g.heapGet (pick (outs.filter (fun s => template_matches_state tname (g.heapGet s)))))
        = true := (List.mem_filter.mp hmem).2
    rw [if_pos hmatch]
    try simp only []
    repeat any_goals first | split | rfl

/-- Witness for C10: a two-line trace on `mtG` loses its first line. -/
theorem match_trace_mutates_trace_witness :
    (mtG.match_trace pickHead ["a", "b"]).2 = ["b"] :=
  (match_trace_mutates_trace mtG pickHead pickHead_mem).2.2.2.2 "a" "b" [] "A" [11]
    rfl rfl (by decide)

end WhatTheLog
